import Mathlib

set_option linter.dupNamespace false

/-!
# The V8 isolate pool of `runtime/v8/isolate.go`

A shallow embedding of the isolate pool (package `v8`): the registry `isolates`, the
readiness channel `chIsoReady`, the options `runtimeOption`, and the functions
`NewIsolate`, `newIsolate`, `SelectIso`, `Resize`, `Add`, `Remove`, `Dispose`, `Range`,
`Key`, `Lock`, `Unlock`, `health` and `MakeContext`.

Conventions of the embedding.

* A `*Isolate` is an address into `State.heap`; allocation appends to the heap, so a new
  object gets the address `heap.length`.  An address outside the heap plays the part of
  the nil pointer.
* The package variables are the fields of `State`; every function takes the state and
  returns the state it leaves.
* A call ends in one of three ways (`Res`): it returns (`done`), it stops with a Go
  run-time panic (`panicked`), or it waits for ever on a channel send that no receiver
  takes (`blocked`).  The state at that point is kept in all three cases.
* The Go `int` values `Len`, `MinSize`, `MaxSize` are `Int`.  The floor `MinSize-1` of
  `Unlock` is reduced to 64 bits (`wrapInt`), since `MinSize` is whatever the caller
  configured; `Len` is only compared, raised by one below `MaxSize` and lowered by one.
  The `uint64` heap figures are `Nat` and are only compared.
* What the engine decides (the native handle a creation yields, whether a compile or a
  run fails) is an argument of the function that asks for it.
-/

namespace V8

/-- Modelled from the spec: the constants `IsoReady` and `IsoBusy` are declared outside the
given sources; the data model of the spec gives the status the two values Ready and Busy. -/
inductive Status where
  | IsoReady
  | IsoBusy
deriving DecidableEq, Repr

/-- The two figures of `v8go.HeapStatistics` that `health` reads (both `uint64`). -/
structure HeapStatistics where
  TotalHeapSize : Nat
  TotalAvailableSize : Nat
deriving DecidableEq, Repr

/-- A native engine handle, the target of a non-nil `*v8go.Isolate`; `stat` is what
`GetHeapStatistics` reports for it now. -/
structure V8goIsolate where
  stat : HeapStatistics
deriving DecidableEq, Repr

/-- The struct `Isolate`: the embedded `*v8go.Isolate` (`none` is nil), the template
pointer (`none` is nil) and the status. -/
structure Isolate where
  Isolate : Option V8goIsolate
  template : Option Unit
  status : Status
deriving DecidableEq, Repr

/-- The dynamic values (`any`) that occur as keys of `isolates.Data`: `str a` is the string
`fmt.Sprintf("%p", a)` for the address `a` (the rendering of an address is one-to-one),
`ptr p` is a value of dynamic type `*Isolate`. -/
inductive Any where
  | str (addr : Nat)
  | ptr (p : Nat)
deriving DecidableEq, Repr

/-- A buffered channel of `*Isolate`: `make(chan *Isolate, cap)` with the buffered
elements, oldest first. -/
structure Chan where
  cap : Nat
  buf : List Nat
deriving DecidableEq, Repr

/-- Modelled from the spec: the type of `runtimeOption` is declared outside the given
sources; these are the fields that the pool code reads (`MinSize` the floor and `MaxSize`
the ceiling of the spec, the two heap thresholds of `health`, and `Precompile`). -/
structure RuntimeOption where
  MinSize : Int
  MaxSize : Int
  HeapSizeRelease : Nat
  HeapAvailableSize : Nat
  Precompile : Bool
deriving DecidableEq, Repr

/-- The struct `Isolates`: `Data` is the `sync.Map` (its keys, each mapped to `true`, no
key twice) and `Len` the live count. -/
structure Isolates where
  Data : List Any
  Len : Int
deriving DecidableEq, Repr

/-- The package state: the heap of `Isolate` objects and the package variables
`isolates`, `chIsoReady` (`none` is the nil channel) and `runtimeOption`. -/
structure State where
  heap : List Isolate
  isolates : Isolates
  chIsoReady : Option Chan
  runtimeOption : RuntimeOption
deriving DecidableEq, Repr

/-- The errors the pool returns. -/
inductive Err where
  | capacity (maxSize : Int)
  | timeout
  | compile
  | run
deriving DecidableEq, Repr

/-- How a call ends: it returns `a`, it panics, or it blocks for ever on a send. -/
inductive Res (α : Type) where
  | done (a : α) (s : State)
  | panicked (s : State)
  | blocked (s : State)
deriving DecidableEq, Repr

/-- The package variables as the declarations at the top of the file leave them:
`isolates = &Isolates{Data: &sync.Map{}, Len: 0}`, `chIsoReady` nil, no object allocated;
`runtimeOption` is declared elsewhere and is a parameter. -/
def init (opt : RuntimeOption) : State :=
  { heap := [], isolates := { Data := [], Len := 0 }, chIsoReady := none, runtimeOption := opt }

/-- Writes the object at address `p`. -/
def State.store (s : State) (p : Nat) (o : Isolate) : State :=
  { s with heap := s.heap.set p o }

/-- The builtin `len(chIsoReady)`; the length of a nil channel is 0. -/
def chanLen : Option Chan → Nat
  | none => 0
  | some c => c.buf.length

/-- The statement `chIsoReady <- iso` with no receiver waiting: a send on a nil channel and a
send on a channel whose buffer is full both block. -/
def send (s : State) (p : Nat) : Res Unit :=
  match s.chIsoReady with
  | none => .blocked s
  | some c =>
    if c.buf.length < c.cap then
      .done () { s with chIsoReady := some { c with buf := c.buf ++ [p] } }
    else .blocked s

/-- The method `sync.Map.Store(key, true)`. -/
def mapStore (d : List Any) (k : Any) : List Any :=
  if k ∈ d then d else d ++ [k]

/-- The method `Isolate.Key`: the `%p` rendering of the address. -/
def Isolate.Key (p : Nat) : Any := .str p

/-- The method `Isolate.Precompile`: both loops only compute a local `timeout` that is never
used, so the call has no effect. -/
def Isolate.Precompile (s : State) (_p : Nat) : State := s

/-- The function `newIsolate`: a fresh object with the native handle `h` that
`v8go.NewIsolate()` yields, the template of `MakeTemplate`, and status `IsoReady`. -/
def newIsolate (s : State) (h : V8goIsolate) : Nat × State :=
  let new := s.heap.length
  let s1 : State :=
    { s with heap := s.heap ++ [{ Isolate := some h, template := some (), status := .IsoReady }] }
  if s1.runtimeOption.Precompile then (new, Isolate.Precompile s1 new) else (new, s1)

/-- The method `Isolates.Add`. -/
def Isolates.Add (s : State) (iso : Nat) : Res Unit :=
  let s1 : State :=
    { s with isolates :=
        { Data := mapStore s.isolates.Data (Isolate.Key iso), Len := s.isolates.Len + 1 } }
  send s1 iso

/-- The function `NewIsolate`; the result is the Go pair `(*Isolate, error)`. -/
def NewIsolate (s : State) (h : V8goIsolate) : Res (Option Nat × Option Err) :=
  if s.isolates.Len ≥ s.runtimeOption.MaxSize then
    .done (none, some (.capacity s.runtimeOption.MaxSize)) s
  else
    match Isolates.Add (newIsolate s h).2 (newIsolate s h).1 with
    | .done _ s2 => .done (some (newIsolate s h).1, none) s2
    | .panicked s2 => .panicked s2
    | .blocked s2 => .blocked s2

/-- The method `Isolate.Dispose`.  `iso.Isolate.Dispose()` is a method of `v8go` that reads
a field of its receiver, so on a nil handle it is a nil dereference; the two assignments
after it are then not reached. -/
def Isolate.Dispose (s : State) (iso : Nat) : Res Unit :=
  match s.heap[iso]? with
  | none => .panicked s
  | some o =>
    match o.Isolate with
    | none => .panicked s
    | some _ => .done () (s.store iso { o with Isolate := none, template := none })

/-- The method `Isolates.Remove`: the key is deleted, `Len` is decremented, and the deferred
`Dispose` runs last. -/
def Isolates.Remove (s : State) (iso : Nat) : Res Unit :=
  let s1 : State :=
    { s with isolates :=
        { Data := s.isolates.Data.erase (Isolate.Key iso), Len := s.isolates.Len - 1 } }
  Isolate.Dispose s1 iso

/-- The method `Isolates.Range` over the keys `ks` still to visit: a key deleted meanwhile
is skipped, the type assertion `key.(*Isolate)` panics on a key that is not a `*Isolate`,
and the traversal stops when the callback returns false. -/
def Isolates.Range (callback : State → Nat → Res Bool) : List Any → State → Res Unit
  | [], s => .done () s
  | k :: ks, s =>
    if k ∈ s.isolates.Data then
      match k with
      | .ptr p =>
        match callback s p with
        | .done true s1 => Isolates.Range callback ks s1
        | .done false s1 => .done () s1
        | .panicked s1 => .panicked s1
        | .blocked s1 => .blocked s1
      | .str _ => .panicked s
    else Isolates.Range callback ks s

/-- The creation loop of `Resize`, `for i := 0; i < runtimeOption.MinSize; i++`, with `n`
iterations left; `hs i` is the native handle that creation number `i` yields. -/
def Resize.loop (hs : Nat → V8goIsolate) : Nat → Nat → State → Res (Option Err)
  | 0, _, s => .done none s
  | n + 1, i, s =>
    match NewIsolate s (hs i) with
    | .done (_, some err) s1 => .done (some err) s1
    | .done (_, none) s1 => Resize.loop hs n (i + 1) s1
    | .panicked s1 => .panicked s1
    | .blocked s1 => .blocked s1

/-- The method `Isolates.Resize`.  `Validate` stands for `runtimeOption.Validate()`, which is
declared outside the given sources; `make(chan *Isolate, n)` panics for a negative `n`. -/
def Isolates.Resize (Validate : RuntimeOption → RuntimeOption) (s : State)
    (minSize maxSize : Int) (hs : Nat → V8goIsolate) : Res (Option Err) :=
  let maxSize := if maxSize > 100 then 100 else maxSize
  match Isolates.Range
      (fun s iso =>
        match Isolates.Remove s iso with
        | .done _ s1 => .done true s1
        | .panicked s1 => .panicked s1
        | .blocked s1 => .blocked s1)
      s.isolates.Data s with
  | .done _ s1 =>
    let opt := Validate { s1.runtimeOption with MinSize := minSize, MaxSize := maxSize }
    if opt.MaxSize < 0 then .panicked { s1 with runtimeOption := opt }
    else
      Resize.loop hs opt.MinSize.toNat 0
        { s1 with runtimeOption := opt, chIsoReady := some { cap := opt.MaxSize.toNat, buf := [] } }
  | .panicked s1 => .panicked s1
  | .blocked s1 => .blocked s1

/-- The method `Isolate.Lock`. -/
def Isolate.Lock (s : State) (iso : Nat) : Res (Option Err) :=
  match s.heap[iso]? with
  | none => .panicked s
  | some o => .done none (s.store iso { o with status := .IsoBusy })

/-- The method `Isolate.health`. -/
def Isolate.health (iso : V8.Isolate) (opt : RuntimeOption) : Bool :=
  match iso.Isolate with
  | none => false
  | some h =>
    if h.stat.TotalHeapSize > opt.HeapSizeRelease then false
    else if h.stat.TotalAvailableSize < opt.HeapAvailableSize then false
    else true

/-- The value of a Go `int` (64 bits, two's complement) computed as `x`: `x` reduced modulo
`2^64` into the range from `-2^63` to `2^63 - 1`. -/
def wrapInt (x : Int) : Int :=
  (x + 9223372036854775808) % 18446744073709551616 - 9223372036854775808

/-- The method `Isolate.Unlock`.  The function literal started with `go` is run to its end
as part of the call; `h` is the native handle a replacement creation yields. -/
def Isolate.Unlock (s : State) (iso : Nat) (h : V8goIsolate) : Res (Option Err) :=
  match s.heap[iso]? with
  | none => .panicked s
  | some o =>
    if Isolate.health o s.runtimeOption
        && decide ((chanLen s.chIsoReady : Int) ≤ wrapInt (s.runtimeOption.MinSize - 1)) then
      match send (s.store iso { o with status := .IsoReady }) iso with
      | .done _ s1 => .done none s1
      | .panicked s1 => .panicked s1
      | .blocked s1 => .blocked s1
    else
      match Isolates.Remove s iso with
      | .done _ s1 =>
        if (chanLen s1.chIsoReady : Int) ≤ wrapInt (s1.runtimeOption.MinSize - 1) then
          match NewIsolate s1 h with
          | .done _ s2 => .done none s2
          | .panicked s2 => .panicked s2
          | .blocked s2 => .blocked s2
        else .done none s1
      | .panicked s1 => .panicked s1
      | .blocked s1 => .blocked s1

/-- The method `Isolate.Locked`. -/
def Isolate.Locked (iso : V8.Isolate) : Bool := iso.status == .IsoBusy

/-- The function `SelectIso` taken as one sequential step: with an instance buffered the
receive wins, the head is dequeued and locked; with none buffered the timer wins and
nothing is consumed.  The creation it starts with `go NewIsolate()` is a step of its own
(`NewIsolate`). -/
def SelectIso (s : State) : Res (Option Nat × Option Err) :=
  match s.chIsoReady with
  | none => .done (none, some .timeout) s
  | some c =>
    match c.buf with
    | [] => .done (none, some .timeout) s
    | iso :: rest =>
      match Isolate.Lock { s with chIsoReady := some { c with buf := rest } } iso with
      | .done _ s1 => .done (some iso, none) s1
      | .panicked s1 => .panicked s1
      | .blocked s1 => .blocked s1

/-- A script: its source text and file name. -/
structure Script where
  Source : String
  File : String
deriving DecidableEq, Repr

/-- The pool state together with the engine-side record of execution contexts: entry `c`
of `contexts` is the number of `Close` calls made on context `c`, and `runs` lists the
(context, script) pairs that were run. -/
structure CtxState where
  pool : State
  contexts : List Nat
  runs : List (Nat × Script)
deriving DecidableEq, Repr

/-- How `MakeContext` ends: it returns the Go pair `(*v8go.Context, error)` or panics. -/
inductive CtxRes where
  | done (ctx : Option Nat) (err : Option Err) (c : CtxState)
  | panicked (c : CtxState)
deriving DecidableEq, Repr

/-- The method `v8go.Context.Close` on context `ctx`. -/
def CtxState.close (c : CtxState) (ctx : Nat) : CtxState :=
  { c with contexts := c.contexts.set ctx (c.contexts.getD ctx 0 + 1) }

/-- The method `Isolate.MakeContext`.  `compile h script` is what `CompileUnboundScript`
answers on the native handle `h` (`none` is success) and `runUnit script ctx` what `Run`
answers in context `ctx`; a method call on a nil native handle is a nil dereference. -/
def Isolate.MakeContext (compile : V8goIsolate → Script → Option Err)
    (runUnit : Script → Nat → Option Err) (c : CtxState) (iso : Nat) (script : Script) :
    CtxRes :=
  match c.pool.heap[iso]? with
  | none => .panicked c
  | some o =>
    let newContext := c.contexts.length
    let c1 : CtxState := { c with contexts := c.contexts ++ [0] }
    match o.Isolate with
    | none => .panicked c1
    | some h =>
      match compile h script with
      | some err => .done none (some err) (c1.close newContext)
      | none =>
        let c2 : CtxState := { c1 with runs := c1.runs ++ [(newContext, script)] }
        match runUnit script newContext with
        | some err => .done none (some err) (c2.close newContext)
        | none => .done (some newContext) none c2

/-- The pool operations as sequential steps.  `exec` is the engine at work between two
pool calls: the heap figures of a live native handle change. -/
inductive Op where
  | newIsolate (h : V8goIsolate)
  | selectIso
  | unlock (iso : Nat) (h : V8goIsolate)
  | remove (iso : Nat)
  | resize (minSize maxSize : Int) (hs : Nat → V8goIsolate)
  | exec (iso : Nat) (stat : HeapStatistics)

/-- The heap figures of the native handle of `iso` become `stat`. -/
def exec (s : State) (iso : Nat) (stat : HeapStatistics) : Option State :=
  match s.heap[iso]? with
  | none => none
  | some o =>
    match o.Isolate with
    | none => none
    | some _ => some (s.store iso { o with Isolate := some { stat := stat } })

/-- The state a call leaves when it returns; a panic or a block ends the run. -/
def Res.state {α : Type} : Res α → Option State
  | .done _ s => some s
  | .panicked _ => none
  | .blocked _ => none

/-- One sequential step of the pool. -/
def step (Validate : RuntimeOption → RuntimeOption) (s : State) : Op → Option State
  | .newIsolate h => (NewIsolate s h).state
  | .selectIso => (SelectIso s).state
  | .unlock iso h => (Isolate.Unlock s iso h).state
  | .remove iso => (Isolates.Remove s iso).state
  | .resize minSize maxSize hs => (Isolates.Resize Validate s minSize maxSize hs).state
  | .exec iso stat => exec s iso stat

/-- A finite sequence of steps, each of which returns. -/
def run (Validate : RuntimeOption → RuntimeOption) : State → List Op → Option State
  | s, [] => some s
  | s, op :: ops =>
    match step Validate s op with
    | none => none
    | some s1 => run Validate s1 ops

/-- The steps of the acquisition and release protocol. -/
inductive ProtoOp where
  | newIsolate (h : V8goIsolate)
  | selectIso
  | unlock (iso : Nat) (h : V8goIsolate)
  | exec (iso : Nat) (stat : HeapStatistics)
deriving DecidableEq, Repr

/-- One step of the protocol on the pool state and the list `held` of the instances that
`SelectIso` returned and that were not released since: `Unlock` is only applied to a held
instance. -/
def protoStep (sh : State × List Nat) : ProtoOp → Option (State × List Nat)
  | .newIsolate h => (NewIsolate sh.1 h).state.map (fun s1 => (s1, sh.2))
  | .selectIso =>
    match SelectIso sh.1 with
    | .done (some iso, _) s1 => some (s1, iso :: sh.2)
    | .done (none, _) s1 => some (s1, sh.2)
    | .panicked _ => none
    | .blocked _ => none
  | .unlock iso h =>
    if iso ∈ sh.2 then (Isolate.Unlock sh.1 iso h).state.map (fun s1 => (s1, sh.2.erase iso))
    else none
  | .exec iso stat => (exec sh.1 iso stat).map (fun s1 => (s1, sh.2))

/-- A finite sequence of protocol steps. -/
def protoRun : State × List Nat → List ProtoOp → Option (State × List Nat)
  | sh, [] => some sh
  | sh, op :: ops =>
    match protoStep sh op with
    | none => none
    | some sh1 => protoRun sh1 ops

/-- The registry invariant: every key of `isolates.Data` is the key of an allocated
instance, no key occurs twice, `Len` is the number of keys, and every instance that still
has its native handle is registered. -/
def PoolInv (s : State) : Prop :=
  (∀ k ∈ s.isolates.Data, ∃ a, k = Any.str a ∧ a < s.heap.length) ∧
  s.isolates.Data.Nodup ∧
  s.isolates.Len = (s.isolates.Data.length : Int) ∧
  (∀ p o, s.heap[p]? = some o → o.Isolate ≠ none → Any.str p ∈ s.isolates.Data)

/-- The readiness-queue invariant on a pool state and the list of held instances: the
channel exists, no instance is buffered twice or held twice, a buffered instance is Ready
and has its native handle, a held instance is Busy and not buffered. -/
def QueueInv (s : State) (held : List Nat) : Prop :=
  ∃ c, s.chIsoReady = some c ∧ c.buf.Nodup ∧ held.Nodup ∧
    (∀ p ∈ c.buf, ∃ o, s.heap[p]? = some o ∧ o.status = .IsoReady ∧ o.Isolate ≠ none) ∧
    (∀ p ∈ held, p ∉ c.buf ∧ ∃ o, s.heap[p]? = some o ∧ o.status = .IsoBusy)

/-- The channel invariant: either no `Resize` has made the channel yet and no instance has
been allocated, or the channel exists with the capacity `MaxSize` in force. -/
def ChanInv (s : State) : Prop :=
  (s.chIsoReady = none ∧ s.heap = []) ∨
  (∃ c, s.chIsoReady = some c ∧ c.cap = s.runtimeOption.MaxSize.toNat)

/-! ## Concrete pool states used in the examples -/

/-- Example options: release threshold 100, minimum available size 10. -/
def exOpt : RuntimeOption :=
  { MinSize := 0, MaxSize := 0, HeapSizeRelease := 100, HeapAvailableSize := 10,
    Precompile := true }

/-- A native handle with healthy heap figures under `exOpt`. -/
def exHandle : V8goIsolate := { stat := { TotalHeapSize := 50, TotalAvailableSize := 20 } }

/-- Every creation yields `exHandle`. -/
def exHandles : Nat → V8goIsolate := fun _ => exHandle

/-- A fresh instance carrying `exHandle`. -/
def exReady : Isolate := { Isolate := some exHandle, template := some (), status := .IsoReady }

/-- The instance `exReady` after `Lock`. -/
def exBusy : Isolate := { Isolate := some exHandle, template := some (), status := .IsoBusy }

/-- The pool left by `Resize(1, 2)` on the initial state: one instance, registered and
queued. -/
def exResized12 : State :=
  { heap := [exReady],
    isolates := { Data := [.str 0], Len := 1 },
    chIsoReady := some { cap := 2, buf := [0] },
    runtimeOption := { exOpt with MinSize := 1, MaxSize := 2 } }

/-- The pool left by `Resize(2, 3)` on the initial state. -/
def exResized23 : State :=
  { heap := [exReady, exReady],
    isolates := { Data := [.str 0, .str 1], Len := 2 },
    chIsoReady := some { cap := 3, buf := [0, 1] },
    runtimeOption := { exOpt with MinSize := 2, MaxSize := 3 } }

/-- The pool `exResized23` after `SelectIso`, `NewIsolate`, `Unlock(0)`, `SelectIso`, a heap
growth of instance 1 beyond the release threshold, and `Unlock(1)`. -/
def exAfterTrace : State :=
  { heap := [{ Isolate := none, template := none, status := .IsoBusy },
             { Isolate := none, template := none, status := .IsoBusy }, exReady, exReady],
    isolates := { Data := [.str 2, .str 3], Len := 2 },
    chIsoReady := some { cap := 3, buf := [2, 3] },
    runtimeOption := { exOpt with MinSize := 2, MaxSize := 3 } }

/-- The pool `exAfterTrace` after one more `SelectIso`, which hands out instance 2. -/
def exAfterSelect : State :=
  { heap := [{ Isolate := none, template := none, status := .IsoBusy },
             { Isolate := none, template := none, status := .IsoBusy }, exBusy, exReady],
    isolates := { Data := [.str 2, .str 3], Len := 2 },
    chIsoReady := some { cap := 3, buf := [3] },
    runtimeOption := { exOpt with MinSize := 2, MaxSize := 3 } }

/-- The pool after `Resize(1, 1)` and `Isolates.Remove` of the queued instance 0: the live
count is 0, below the ceiling 1, and the queue of capacity 1 still holds instance 0. -/
def fullQueueState : State :=
  { heap := [{ Isolate := none, template := none, status := .IsoReady }],
    isolates := { Data := [], Len := 0 },
    chIsoReady := some { cap := 1, buf := [0] },
    runtimeOption := { exOpt with MinSize := 1, MaxSize := 1 } }

/-- The pool after `Resize(1, 2)` and `SelectIso`: instance 0 is held and the queue is
empty, so its length is exactly `MinSize - 1 = 0`. -/
def heldAtFloor : State :=
  { heap := [exBusy],
    isolates := { Data := [.str 0], Len := 1 },
    chIsoReady := some { cap := 2, buf := [] },
    runtimeOption := { exOpt with MinSize := 1, MaxSize := 2 } }

/-- The pool after `Resize(3, 5)` and two `SelectIso` calls: the healthy instances 0 and 1
are held and the queue of capacity 5 holds instance 2. -/
def heldUnderFloor : State :=
  { heap := [exBusy, exBusy, exReady],
    isolates := { Data := [.str 0, .str 1, .str 2], Len := 3 },
    chIsoReady := some { cap := 5, buf := [2] },
    runtimeOption := { exOpt with MinSize := 3, MaxSize := 5 } }

/-- A pool configured with the least Go `int` as floor in which the healthy instance 0 is
held and the queue is empty. -/
def heldAtLeastInt : State :=
  { heap := [exBusy],
    isolates := { Data := [.str 0], Len := 1 },
    chIsoReady := some { cap := 5, buf := [] },
    runtimeOption := { exOpt with MinSize := -9223372036854775808, MaxSize := 5 } }

/-- A pool with floor 0 in which the healthy instance 0 is held. -/
def heldAboveFloor : State :=
  { heap := [exBusy],
    isolates := { Data := [.str 0], Len := 1 },
    chIsoReady := some { cap := 5, buf := [] },
    runtimeOption := { exOpt with MinSize := 0, MaxSize := 5 } }

/-- The pool after `Resize(1, 2)`, `SelectIso`, a heap growth of instance 0 beyond the
release threshold and `Unlock(0)`: instance 0 was retired (its `Isolate` field is nil) and
instance 1 replaced it. -/
def retiredState : State :=
  { heap := [{ Isolate := none, template := none, status := .IsoBusy }, exReady],
    isolates := { Data := [.str 1], Len := 1 },
    chIsoReady := some { cap := 2, buf := [1] },
    runtimeOption := { exOpt with MinSize := 1, MaxSize := 2 } }

/-- An example script. -/
def exScript : Script := { Source := "function f() \x7b", File := "bad.js" }

/-- A context record over the pool `exResized12` with no context created yet. -/
def exCtxState : CtxState := { pool := exResized12, contexts := [], runs := [] }

/-! ## Basic facts about the heap and the primitive operations -/

theorem heap_lt {l : List Isolate} {p : Nat} {o : Isolate} (h : l[p]? = some o) :
    p < l.length :=
  (List.getElem?_eq_some_iff.mp h).1

theorem heap_append_old {l : List Isolate} {x : Isolate} {p : Nat} {o : Isolate}
    (h : l[p]? = some o) : (l ++ [x])[p]? = some o := by
  rw [List.getElem?_append_left (heap_lt h)]
  exact h

theorem heap_set_other {l : List Isolate} {x : Isolate} {p q : Nat} (hne : q ≠ p) :
    (l.set q x)[p]? = l[p]? := by
  simp [List.getElem?_set, hne]

theorem heap_set_self {l : List Isolate} {x o : Isolate} {p : Nat} (h : l[p]? = some o) :
    (l.set p x)[p]? = some x := by
  have hlt : p < l.length := heap_lt h
  simp [List.getElem?_set, hlt]

theorem newIsolate_eq (s : State) (h : V8goIsolate) :
    newIsolate s h = (s.heap.length,
      { s with heap := s.heap ++ [{ Isolate := some h, template := some (), status := .IsoReady }] }) := by
  unfold newIsolate
  simp only [Isolate.Precompile]
  split <;> rfl

theorem health_handle {o : Isolate} {opt : RuntimeOption} (h : Isolate.health o opt = true) :
    o.Isolate ≠ none := by
  intro hn
  simp [Isolate.health, hn] at h

/-- The three ways `NewIsolate` can end. -/
theorem newIsolate_cases (s : State) (h : V8goIsolate) :
    (s.runtimeOption.MaxSize ≤ s.isolates.Len ∧
      NewIsolate s h = .done (none, some (.capacity s.runtimeOption.MaxSize)) s) ∨
    (∃ c, s.chIsoReady = some c ∧ NewIsolate s h = .done (some s.heap.length, none)
      { heap := s.heap ++ [{ Isolate := some h, template := some (), status := .IsoReady }],
        isolates := { Data := mapStore s.isolates.Data (Isolate.Key s.heap.length),
                      Len := s.isolates.Len + 1 },
        chIsoReady := some { cap := c.cap, buf := c.buf ++ [s.heap.length] },
        runtimeOption := s.runtimeOption } ∧
      s.isolates.Len < s.runtimeOption.MaxSize ∧ c.buf.length < c.cap) ∨
    (s.isolates.Len < s.runtimeOption.MaxSize ∧
      (∀ c, s.chIsoReady = some c → ¬ c.buf.length < c.cap) ∧
      ∃ s1, NewIsolate s h = .blocked s1) := by
  by_cases hle : s.runtimeOption.MaxSize ≤ s.isolates.Len
  · left
    exact ⟨hle, by simp [NewIsolate, hle]⟩
  · right
    cases hc : s.chIsoReady with
    | none =>
      right
      refine ⟨by omega, by simp, ?_⟩
      simp [NewIsolate, hle, newIsolate_eq, Isolates.Add, send, hc]
    | some c =>
      by_cases hroom : c.buf.length < c.cap
      · left
        refine ⟨c, rfl, ?_, by omega, hroom⟩
        simp [NewIsolate, hle, newIsolate_eq, Isolates.Add, send, hc, hroom]
      · right
        refine ⟨by omega, ?_, ?_⟩
        · intro c1 hc1
          simp only [Option.some.injEq] at hc1
          subst hc1
          exact hroom
        · simp [NewIsolate, hle, newIsolate_eq, Isolates.Add, send, hc, hroom]

theorem remove_done {s : State} {iso : Nat} {o : Isolate} {v : V8goIsolate}
    (ho : s.heap[iso]? = some o) (hv : o.Isolate = some v) :
    Isolates.Remove s iso = .done ()
      { heap := s.heap.set iso { Isolate := none, template := none, status := o.status },
        isolates := { Data := s.isolates.Data.erase (Isolate.Key iso), Len := s.isolates.Len - 1 },
        chIsoReady := s.chIsoReady,
        runtimeOption := s.runtimeOption } := by
  simp [Isolates.Remove, Isolate.Dispose, ho, hv, State.store]

theorem remove_panicked {s : State} {iso : Nat}
    (ho : ∀ o, s.heap[iso]? = some o → o.Isolate = none) :
    Isolates.Remove s iso = .panicked
      { heap := s.heap,
        isolates := { Data := s.isolates.Data.erase (Isolate.Key iso), Len := s.isolates.Len - 1 },
        chIsoReady := s.chIsoReady,
        runtimeOption := s.runtimeOption } := by
  cases h : s.heap[iso]? with
  | none => simp [Isolates.Remove, Isolate.Dispose, h]
  | some o => simp [Isolates.Remove, Isolate.Dispose, h, ho o h]

theorem remove_panicked_of_nil {s : State} {iso : Nat} {o : Isolate}
    (ho : s.heap[iso]? = some o) (hv : o.Isolate = none) :
    Isolates.Remove s iso = .panicked
      { heap := s.heap,
        isolates := { Data := s.isolates.Data.erase (Isolate.Key iso), Len := s.isolates.Len - 1 },
        chIsoReady := s.chIsoReady,
        runtimeOption := s.runtimeOption } := by
  apply remove_panicked
  intro o1 ho1
  rw [ho] at ho1
  simp only [Option.some.injEq] at ho1
  subst ho1
  exact hv

/-- The two ways `Isolates.Remove` can end. -/
theorem remove_cases (s : State) (iso : Nat) :
    (∃ o v, s.heap[iso]? = some o ∧ o.Isolate = some v ∧
      Isolates.Remove s iso = .done ()
        { heap := s.heap.set iso { Isolate := none, template := none, status := o.status },
          isolates := { Data := s.isolates.Data.erase (Isolate.Key iso),
                        Len := s.isolates.Len - 1 },
          chIsoReady := s.chIsoReady,
          runtimeOption := s.runtimeOption }) ∨
    (∃ s1, Isolates.Remove s iso = .panicked s1) := by
  cases ho : s.heap[iso]? with
  | none =>
    right
    exact ⟨_, remove_panicked (by intro o h; rw [ho] at h; simp at h)⟩
  | some o =>
    cases hv : o.Isolate with
    | none =>
      right
      exact ⟨_, remove_panicked_of_nil ho hv⟩
    | some v =>
      left
      exact ⟨o, v, rfl, hv, remove_done ho hv⟩

/-- The three ways `SelectIso` can end. -/
theorem selectIso_cases (s : State) :
    SelectIso s = .done (none, some .timeout) s ∨
    (∃ c iso rest o, s.chIsoReady = some c ∧ c.buf = iso :: rest ∧ s.heap[iso]? = some o ∧
      SelectIso s = .done (some iso, none)
        { heap := s.heap.set iso { Isolate := o.Isolate, template := o.template, status := .IsoBusy },
          isolates := s.isolates,
          chIsoReady := some { cap := c.cap, buf := rest },
          runtimeOption := s.runtimeOption }) ∨
    (∃ s1, SelectIso s = .panicked s1) := by
  cases hc : s.chIsoReady with
  | none => left; simp [SelectIso, hc]
  | some c =>
    cases hb : c.buf with
    | nil => left; simp [SelectIso, hc, hb]
    | cons iso rest =>
      right
      cases ho : s.heap[iso]? with
      | none => right; simp [SelectIso, hc, hb, Isolate.Lock, ho]
      | some o =>
        left
        exact ⟨c, iso, rest, o, rfl, hb, ho,
          by simp [SelectIso, hc, hb, Isolate.Lock, ho, State.store]⟩

theorem mapStore_fresh {s : State}
    (h1 : ∀ k ∈ s.isolates.Data, ∃ a, k = Any.str a ∧ a < s.heap.length) :
    mapStore s.isolates.Data (Isolate.Key s.heap.length)
      = s.isolates.Data ++ [Any.str s.heap.length] := by
  unfold mapStore Isolate.Key
  split_ifs with hm
  · obtain ⟨a, ha, hlt⟩ := h1 _ hm
    simp only [Any.str.injEq] at ha
    omega
  · rfl

/-! ## The readiness-queue invariant is kept by every protocol step -/

theorem queueInv_newIsolate {s s1 : State} {held : List Nat} {h : V8goIsolate}
    {r : Option Nat × Option Err} (hinv : QueueInv s held)
    (hr : NewIsolate s h = .done r s1) : QueueInv s1 held := by
  obtain ⟨c, hc, hnd, hhd, hq, hh⟩ := hinv
  rcases newIsolate_cases s h with ⟨_, hn⟩ | ⟨c2, hc2, hn, _, _⟩ | ⟨_, _, s2, hn⟩
  · rw [hn] at hr
    simp only [Res.done.injEq] at hr
    obtain ⟨_, rfl⟩ := hr
    exact ⟨c, hc, hnd, hhd, hq, hh⟩
  · rw [hn] at hr
    simp only [Res.done.injEq] at hr
    obtain ⟨_, rfl⟩ := hr
    rw [hc] at hc2
    simp only [Option.some.injEq] at hc2
    subst hc2
    have hfresh : s.heap.length ∉ c.buf := by
      intro hm
      obtain ⟨o, ho, _⟩ := hq _ hm
      have := heap_lt ho
      omega
    refine ⟨_, rfl, ?_, hhd, ?_, ?_⟩
    · simp only
      rw [List.nodup_append]
      refine ⟨hnd, List.nodup_singleton _, ?_⟩
      intro a ha hb
      simp only [List.mem_singleton] at hb
      subst hb
      exact hfresh ha
    · intro p hp
      simp only [List.mem_append, List.mem_singleton] at hp
      rcases hp with hp | hp
      · obtain ⟨o, ho, h1, h2⟩ := hq p hp
        exact ⟨o, heap_append_old ho, h1, h2⟩
      · subst hp
        refine ⟨{ Isolate := some h, template := some (), status := .IsoReady }, ?_, rfl, ?_⟩
        · simp
        · simp
    · intro p hp
      obtain ⟨hnot, o, ho, hb⟩ := hh p hp
      refine ⟨?_, o, heap_append_old ho, hb⟩
      simp only [List.mem_append, List.mem_singleton, not_or]
      refine ⟨hnot, ?_⟩
      have := heap_lt ho
      omega
  · rw [hn] at hr
    simp at hr

theorem queueInv_selectIso {s s1 : State} {held : List Nat} {iso : Nat} {e : Option Err}
    (hinv : QueueInv s held) (hr : SelectIso s = .done (some iso, e) s1) :
    QueueInv s1 (iso :: held) ∧ iso ∉ held := by
  obtain ⟨c, hc, hnd, hhd, hq, hh⟩ := hinv
  rcases selectIso_cases s with hn | ⟨c2, a, rest, o, hc2, hb, ho, hn⟩ | ⟨s2, hn⟩
  · rw [hn] at hr
    simp at hr
  · rw [hn] at hr
    simp only [Res.done.injEq, Prod.mk.injEq, Option.some.injEq] at hr
    obtain ⟨⟨rfl, _⟩, rfl⟩ := hr
    rw [hc] at hc2
    simp only [Option.some.injEq] at hc2
    subst hc2
    rw [hb] at hnd hq hh
    have hnotin : a ∉ rest := (List.nodup_cons.mp hnd).1
    have hnotheld : a ∉ held := fun hm => (hh a hm).1 (List.mem_cons_self _ _)
    refine ⟨⟨_, rfl, (List.nodup_cons.mp hnd).2, List.nodup_cons.mpr ⟨hnotheld, hhd⟩, ?_, ?_⟩,
      hnotheld⟩
    · intro p hp
      obtain ⟨o1, ho1, h1, h2⟩ := hq p (List.mem_cons_of_mem _ hp)
      have hne : a ≠ p := fun heq => hnotin (heq ▸ hp)
      exact ⟨o1, by simp only [heap_set_other hne]; exact ho1, h1, h2⟩
    · intro p hp
      rcases List.mem_cons.mp hp with rfl | hp
      · exact ⟨hnotin, _, heap_set_self ho, rfl⟩
      · obtain ⟨hnot, o1, ho1, hb1⟩ := hh p hp
        have hne : a ≠ p := fun heq => hnotheld (heq ▸ hp)
        exact ⟨fun hm => hnot (List.mem_cons_of_mem _ hm), o1,
          by simp only [heap_set_other hne]; exact ho1, hb1⟩
  · rw [hn] at hr
    simp at hr

theorem queueInv_selectIso_none {s s1 : State} {held : List Nat} {e : Option Err}
    (hinv : QueueInv s held) (hr : SelectIso s = .done (none, e) s1) :
    QueueInv s1 held := by
  rcases selectIso_cases s with hn | ⟨c2, a, rest, o, hc2, hb, ho, hn⟩ | ⟨s2, hn⟩
  · rw [hn] at hr
    simp only [Res.done.injEq] at hr
    obtain ⟨_, rfl⟩ := hr
    exact hinv
  · rw [hn] at hr
    simp at hr
  · rw [hn] at hr
    simp at hr

theorem queueInv_exec {s s1 : State} {held : List Nat} {iso : Nat} {stat : HeapStatistics}
    (hinv : QueueInv s held) (hr : exec s iso stat = some s1) : QueueInv s1 held := by
  obtain ⟨c, hc, hnd, hhd, hq, hh⟩ := hinv
  unfold exec at hr
  cases ho : s.heap[iso]? with
  | none => simp [ho] at hr
  | some o =>
    cases hv : o.Isolate with
    | none => simp [ho, hv] at hr
    | some v =>
      simp only [ho, hv, Option.some.injEq, State.store] at hr
      subst hr
      refine ⟨c, hc, hnd, hhd, ?_, ?_⟩
      · intro p hp
        obtain ⟨o1, ho1, h1, h2⟩ := hq p hp
        by_cases hne : iso = p
        · subst hne
          rw [ho] at ho1
          simp only [Option.some.injEq] at ho1
          subst ho1
          exact ⟨_, heap_set_self ho, h1, by simp⟩
        · exact ⟨o1, by simp only [heap_set_other hne]; exact ho1, h1, h2⟩
      · intro p hp
        obtain ⟨hnot, o1, ho1, hb1⟩ := hh p hp
        refine ⟨hnot, ?_⟩
        by_cases hne : iso = p
        · subst hne
          rw [ho] at ho1
          simp only [Option.some.injEq] at ho1
          subst ho1
          exact ⟨_, heap_set_self ho, hb1⟩
        · exact ⟨o1, by simp only [heap_set_other hne]; exact ho1, hb1⟩

theorem queueInv_unlock {s s1 : State} {held : List Nat} {iso : Nat} {h : V8goIsolate}
    {r : Option Err} (hinv : QueueInv s held) (hm : iso ∈ held)
    (hr : Isolate.Unlock s iso h = .done r s1) : QueueInv s1 (held.erase iso) := by
  have hinv0 := hinv
  obtain ⟨c, hc, hnd, hhd, hq, hh⟩ := hinv
  obtain ⟨hnotq, o, ho, hbusy⟩ := hh iso hm
  have herase : ∀ p, p ∈ held.erase iso → p ≠ iso ∧ p ∈ held := fun p hp =>
    (List.Nodup.mem_erase_iff hhd).mp hp
  by_cases hcond : (Isolate.health o s.runtimeOption
        && decide ((chanLen s.chIsoReady : Int) ≤ wrapInt (s.runtimeOption.MinSize - 1))) = true
  · simp only [Isolate.Unlock, ho, hcond, if_true] at hr
    simp only [send, State.store, hc] at hr
    have hhealthy : Isolate.health o s.runtimeOption = true := by
      simp only [Bool.and_eq_true] at hcond
      exact hcond.1
    split_ifs at hr with hroom
    · simp only [Res.done.injEq] at hr
      obtain ⟨_, rfl⟩ := hr
      refine ⟨_, rfl, ?_, hhd.erase _, ?_, ?_⟩
      · simp only
        rw [List.nodup_append]
        refine ⟨hnd, List.nodup_singleton _, ?_⟩
        intro a ha hb
        simp only [List.mem_singleton] at hb
        subst hb
        exact hnotq ha
      · intro p hp
        simp only [List.mem_append, List.mem_singleton] at hp
        rcases hp with hp | hp
        · obtain ⟨o1, ho1, h1, h2⟩ := hq p hp
          have hne : iso ≠ p := fun heq => hnotq (heq ▸ hp)
          exact ⟨o1, by simp only [heap_set_other hne]; exact ho1, h1, h2⟩
        · subst hp
          exact ⟨_, heap_set_self ho, rfl, health_handle hhealthy⟩
      · intro p hp
        obtain ⟨hne, hp1⟩ := herase p hp
        obtain ⟨hnot, o1, ho1, hb1⟩ := hh p hp1
        refine ⟨?_, o1, by simp only [heap_set_other (Ne.symm hne)]; exact ho1, hb1⟩
        simp only [List.mem_append, List.mem_singleton, not_or]
        exact ⟨hnot, hne⟩
  · cases hv : o.Isolate with
    | none =>
      have hp := remove_panicked_of_nil ho hv
      simp [Isolate.Unlock, ho, hcond, hp] at hr
    | some v =>
      have hR : QueueInv
          { heap := s.heap.set iso { Isolate := none, template := none, status := o.status },
            isolates := { Data := s.isolates.Data.erase (Isolate.Key iso),
                          Len := s.isolates.Len - 1 },
            chIsoReady := s.chIsoReady,
            runtimeOption := s.runtimeOption } (held.erase iso) := by
        refine ⟨c, hc, hnd, hhd.erase _, ?_, ?_⟩
        · intro p hp
          obtain ⟨o1, ho1, h1, h2⟩ := hq p hp
          have hne : iso ≠ p := fun heq => hnotq (heq ▸ hp)
          exact ⟨o1, by simp only [heap_set_other hne]; exact ho1, h1, h2⟩
        · intro p hp
          obtain ⟨hne, hp1⟩ := herase p hp
          obtain ⟨hnot, o1, ho1, hb1⟩ := hh p hp1
          exact ⟨hnot, o1, by simp only [heap_set_other (Ne.symm hne)]; exact ho1, hb1⟩
      simp only [Isolate.Unlock, ho, hcond, remove_done ho hv] at hr
      simp only [Bool.false_eq_true, if_false] at hr
      split_ifs at hr with hfloor
      · cases hn : NewIsolate
            { heap := s.heap.set iso { Isolate := none, template := none, status := o.status },
              isolates := { Data := s.isolates.Data.erase (Isolate.Key iso),
                            Len := s.isolates.Len - 1 },
              chIsoReady := s.chIsoReady,
              runtimeOption := s.runtimeOption } h with
        | done a s2 =>
          rw [hn] at hr
          simp only [Res.done.injEq] at hr
          obtain ⟨_, rfl⟩ := hr
          exact queueInv_newIsolate hR hn
        | panicked s2 => rw [hn] at hr; simp at hr
        | blocked s2 => rw [hn] at hr; simp at hr
      · simp only [Res.done.injEq] at hr
        obtain ⟨_, rfl⟩ := hr
        exact hR

theorem queueInv_protoStep {sh sh1 : State × List Nat} {op : ProtoOp}
    (hinv : QueueInv sh.1 sh.2) (hr : protoStep sh op = some sh1) : QueueInv sh1.1 sh1.2 := by
  cases op with
  | newIsolate h =>
    simp only [protoStep] at hr
    cases hn : NewIsolate sh.1 h with
    | done a s2 =>
      simp only [hn, Res.state, Option.map_some', Option.some.injEq] at hr
      subst hr
      exact queueInv_newIsolate hinv hn
    | panicked s2 => simp [hn, Res.state] at hr
    | blocked s2 => simp [hn, Res.state] at hr
  | selectIso =>
    simp only [protoStep] at hr
    cases hn : SelectIso sh.1 with
    | done a s2 =>
      obtain ⟨a1, a2⟩ := a
      cases a1 with
      | none =>
        simp only [hn, Option.some.injEq] at hr
        subst hr
        exact queueInv_selectIso_none hinv hn
      | some iso =>
        simp only [hn, Option.some.injEq] at hr
        subst hr
        exact (queueInv_selectIso hinv hn).1
    | panicked s2 => simp [hn] at hr
    | blocked s2 => simp [hn] at hr
  | unlock iso h =>
    simp only [protoStep] at hr
    split_ifs at hr with hm
    cases hn : Isolate.Unlock sh.1 iso h with
    | done a s2 =>
      simp only [hn, Res.state, Option.map_some', Option.some.injEq] at hr
      subst hr
      exact queueInv_unlock hinv hm hn
    | panicked s2 => simp [hn, Res.state] at hr
    | blocked s2 => simp [hn, Res.state] at hr
  | exec iso stat =>
    simp only [protoStep] at hr
    cases hn : exec sh.1 iso stat with
    | none => simp [hn] at hr
    | some s2 =>
      simp only [hn, Option.map_some', Option.some.injEq] at hr
      subst hr
      exact queueInv_exec hinv hn

theorem queueInv_protoRun {ops : List ProtoOp} : ∀ {sh sh1 : State × List Nat},
    QueueInv sh.1 sh.2 → protoRun sh ops = some sh1 → QueueInv sh1.1 sh1.2 := by
  induction ops with
  | nil =>
    intro sh sh1 hinv hr
    simp only [protoRun, Option.some.injEq] at hr
    subst hr
    exact hinv
  | cons op ops ih =>
    intro sh sh1 hinv hr
    simp only [protoRun] at hr
    cases hs : protoStep sh op with
    | none => simp [hs] at hr
    | some sh2 =>
      simp only [hs] at hr
      exact ih (queueInv_protoStep hinv hs) hr

theorem queueInv_loop {hs : Nat → V8goIsolate} {n : Nat} : ∀ {i : Nat} {s s1 : State}
    {r : Option Err}, QueueInv s [] → Resize.loop hs n i s = .done r s1 → QueueInv s1 [] := by
  induction n with
  | zero =>
    intro i s s1 r hinv hr
    simp only [Resize.loop, Res.done.injEq] at hr
    obtain ⟨_, rfl⟩ := hr
    exact hinv
  | succ n ih =>
    intro i s s1 r hinv hr
    simp only [Resize.loop] at hr
    cases hn : NewIsolate s (hs i) with
    | done a s2 =>
      obtain ⟨a1, a2⟩ := a
      have h2 := queueInv_newIsolate hinv hn
      cases a2 with
      | none =>
        simp only [hn] at hr
        exact ih h2 hr
      | some err =>
        simp only [hn, Res.done.injEq] at hr
        obtain ⟨_, rfl⟩ := hr
        exact h2
    | panicked s2 => simp [hn] at hr
    | blocked s2 => simp [hn] at hr

theorem queueInv_resize {Validate : RuntimeOption → RuntimeOption} {s s1 : State}
    {minSize maxSize : Int} {hs : Nat → V8goIsolate} {r : Option Err}
    (hr : Isolates.Resize Validate s minSize maxSize hs = .done r s1) : QueueInv s1 [] := by
  simp only [Isolates.Resize] at hr
  split at hr
  · split_ifs at hr
    all_goals refine queueInv_loop ?_ hr
    all_goals exact ⟨_, rfl, List.nodup_nil, List.nodup_nil, by simp, by simp⟩
  · simp at hr
  · simp at hr

/-! ## The registry invariant is kept by every pool step -/

/-- A state that differs from `s` only in the status and heap figures of its objects. -/
theorem poolInv_set {s : State} {iso : Nat} {o x : Isolate} {c : Option Chan}
    (hinv : PoolInv s) (ho : s.heap[iso]? = some o) (hx : x.Isolate = none ↔ o.Isolate = none) :
    PoolInv { heap := s.heap.set iso x, isolates := s.isolates, chIsoReady := c,
              runtimeOption := s.runtimeOption } := by
  obtain ⟨h1, h2, h3, h4⟩ := hinv
  refine ⟨?_, h2, h3, ?_⟩
  · intro k hk
    obtain ⟨a, ha, hlt⟩ := h1 k hk
    exact ⟨a, ha, by simpa using hlt⟩
  · intro p o1 ho1 hne
    by_cases hp : iso = p
    · subst hp
      rw [heap_set_self ho] at ho1
      simp only [Option.some.injEq] at ho1
      subst ho1
      exact h4 iso o ho (fun hn => hne (hx.mpr hn))
    · rw [heap_set_other hp] at ho1
      exact h4 p o1 ho1 hne

theorem poolInv_congr {s t : State} (hh : t.heap = s.heap) (hi : t.isolates = s.isolates)
    (hinv : PoolInv s) : PoolInv t := by
  unfold PoolInv at *
  rw [hh, hi]
  exact hinv

theorem poolInv_newIsolate {s s1 : State} {h : V8goIsolate} {r : Option Nat × Option Err}
    (hinv : PoolInv s) (hr : NewIsolate s h = .done r s1) :
    PoolInv s1 ∧ s1.runtimeOption = s.runtimeOption ∧
      (s.isolates.Len ≤ s.runtimeOption.MaxSize → s1.isolates.Len ≤ s1.runtimeOption.MaxSize) := by
  rcases newIsolate_cases s h with ⟨_, hn⟩ | ⟨c2, hc2, hn, hlt, _⟩ | ⟨_, _, s2, hn⟩
  · rw [hn] at hr
    simp only [Res.done.injEq] at hr
    obtain ⟨_, rfl⟩ := hr
    exact ⟨hinv, rfl, fun hb => hb⟩
  · rw [hn] at hr
    simp only [Res.done.injEq] at hr
    obtain ⟨_, rfl⟩ := hr
    obtain ⟨h1, h2, h3, h4⟩ := hinv
    refine ⟨⟨?_, ?_, ?_, ?_⟩, rfl, fun _ => by simp only; omega⟩
    · intro k hk
      simp only [mapStore_fresh h1, List.mem_append, List.mem_singleton] at hk
      rcases hk with hk | hk
      · obtain ⟨a, ha, hlt⟩ := h1 k hk
        exact ⟨a, ha, by simp; omega⟩
      · exact ⟨s.heap.length, hk, by simp⟩
    · simp only [mapStore_fresh h1]
      rw [List.nodup_append]
      refine ⟨h2, List.nodup_singleton _, ?_⟩
      intro a ha hb
      simp only [List.mem_singleton] at hb
      subst hb
      obtain ⟨a, ha, hlt⟩ := h1 _ ha
      simp only [Any.str.injEq] at ha
      omega
    · simp only [mapStore_fresh h1, List.length_append, List.length_singleton]
      push_cast
      omega
    · intro p o ho hne
      simp only [mapStore_fresh h1, List.mem_append, List.mem_singleton]
      by_cases hp : p < s.heap.length
      · left
        simp only [List.getElem?_append_left hp] at ho
        exact h4 p o ho hne
      · right
        have := heap_lt ho
        simp at this
        have : p = s.heap.length := by omega
        rw [this]
  · rw [hn] at hr
    simp at hr

theorem poolInv_remove {s s1 : State} {iso : Nat} (hinv : PoolInv s)
    (hr : Isolates.Remove s iso = .done () s1) :
    PoolInv s1 ∧ s1.runtimeOption = s.runtimeOption ∧ s1.isolates.Len = s.isolates.Len - 1 := by
  rcases remove_cases s iso with ⟨o, v, ho, hv, hn⟩ | ⟨s2, hn⟩
  · rw [hn] at hr
    simp only [Res.done.injEq, true_and] at hr
    subst hr
    obtain ⟨h1, h2, h3, h4⟩ := hinv
    have hmem : Any.str iso ∈ s.isolates.Data := h4 iso o ho (by simp [hv])
    refine ⟨⟨?_, ?_, ?_, ?_⟩, rfl, rfl⟩
    · intro k hk
      obtain ⟨a, ha, hlt⟩ := h1 k (List.mem_of_mem_erase hk)
      exact ⟨a, ha, by simpa using hlt⟩
    · exact h2.erase _
    · simp only [Isolate.Key, List.length_erase_of_mem hmem]
      have hpos : 0 < s.isolates.Data.length := List.length_pos_of_mem hmem
      omega
    · intro p o1 ho1 hne
      by_cases hp : iso = p
      · subst hp
        rw [heap_set_self ho] at ho1
        simp only [Option.some.injEq] at ho1
        subst ho1
        simp at hne
      · rw [heap_set_other hp] at ho1
        have hin := h4 p o1 ho1 hne
        simp only [Isolate.Key]
        rw [List.Nodup.mem_erase_iff h2]
        refine ⟨?_, hin⟩
        intro heq
        simp only [Any.str.injEq] at heq
        exact hp heq.symm
  · rw [hn] at hr
    simp at hr

theorem poolInv_selectIso {s s1 : State} {r : Option Nat × Option Err} (hinv : PoolInv s)
    (hr : SelectIso s = .done r s1) :
    PoolInv s1 ∧ s1.runtimeOption = s.runtimeOption ∧ s1.isolates.Len = s.isolates.Len := by
  rcases selectIso_cases s with hn | ⟨c, a, rest, o, hc, hb, ho, hn⟩ | ⟨s2, hn⟩
  · rw [hn] at hr
    simp only [Res.done.injEq] at hr
    obtain ⟨_, rfl⟩ := hr
    exact ⟨hinv, rfl, rfl⟩
  · rw [hn] at hr
    simp only [Res.done.injEq] at hr
    obtain ⟨_, rfl⟩ := hr
    exact ⟨poolInv_set hinv ho (by simp), rfl, rfl⟩
  · rw [hn] at hr
    simp at hr

theorem poolInv_exec {s s1 : State} {iso : Nat} {stat : HeapStatistics} (hinv : PoolInv s)
    (hr : exec s iso stat = some s1) :
    PoolInv s1 ∧ s1.runtimeOption = s.runtimeOption ∧ s1.isolates.Len = s.isolates.Len := by
  unfold exec at hr
  cases ho : s.heap[iso]? with
  | none => simp [ho] at hr
  | some o =>
    cases hv : o.Isolate with
    | none => simp [ho, hv] at hr
    | some v =>
      simp only [ho, hv, Option.some.injEq, State.store] at hr
      subst hr
      exact ⟨poolInv_set hinv ho (by simp [hv]), rfl, rfl⟩

theorem poolInv_unlock {s s1 : State} {iso : Nat} {h : V8goIsolate} {r : Option Err}
    (hinv : PoolInv s) (hr : Isolate.Unlock s iso h = .done r s1) :
    PoolInv s1 ∧ s1.runtimeOption = s.runtimeOption ∧
      (s.isolates.Len ≤ s.runtimeOption.MaxSize → s1.isolates.Len ≤ s1.runtimeOption.MaxSize) := by
  cases ho : s.heap[iso]? with
  | none => simp [Isolate.Unlock, ho] at hr
  | some o =>
    by_cases hcond : (Isolate.health o s.runtimeOption
          && decide ((chanLen s.chIsoReady : Int) ≤ wrapInt (s.runtimeOption.MinSize - 1))) = true
    · simp only [Isolate.Unlock, ho, hcond, if_true] at hr
      simp only [send, State.store] at hr
      cases hc : s.chIsoReady with
      | none => simp [hc] at hr
      | some c =>
        simp only [hc] at hr
        by_cases hroom : c.buf.length < c.cap
        · simp only [hroom, if_true, Res.done.injEq] at hr
          obtain ⟨_, rfl⟩ := hr
          exact ⟨poolInv_set hinv ho (by simp), rfl, fun hb => hb⟩
        · simp [hroom] at hr
    · simp only [Isolate.Unlock, ho, hcond] at hr
      simp only [Bool.false_eq_true, if_false] at hr
      cases hrem : Isolates.Remove s iso with
      | done u s2 =>
        obtain ⟨hi2, ho2, hl2⟩ := poolInv_remove hinv hrem
        simp only [hrem] at hr
        split_ifs at hr with hfloor
        · cases hn : NewIsolate s2 h with
          | done a s3 =>
            rw [hn] at hr
            simp only [Res.done.injEq] at hr
            obtain ⟨_, rfl⟩ := hr
            obtain ⟨hi3, ho3, hb3⟩ := poolInv_newIsolate hi2 hn
            refine ⟨hi3, by rw [ho3, ho2], fun hb => hb3 ?_⟩
            rw [ho2, hl2]
            omega
          | panicked s3 => rw [hn] at hr; simp at hr
          | blocked s3 => rw [hn] at hr; simp at hr
        · simp only [Res.done.injEq] at hr
          obtain ⟨_, rfl⟩ := hr
          refine ⟨hi2, ho2, fun hb => ?_⟩
          rw [ho2, hl2]
          omega
      | panicked s2 => simp [hrem] at hr
      | blocked s2 => simp [hrem] at hr

theorem range_poolInv {callback : State → Nat → Res Bool} {s s1 : State} (hinv : PoolInv s)
    (hr : Isolates.Range callback s.isolates.Data s = .done () s1) :
    s.isolates.Data = [] ∧ s1 = s := by
  cases hd : s.isolates.Data with
  | nil =>
    rw [hd] at hr
    simp only [Isolates.Range, Res.done.injEq, true_and] at hr
    exact ⟨rfl, hr.symm⟩
  | cons k ks =>
    obtain ⟨a, ha, _⟩ := hinv.1 k (by rw [hd]; exact List.mem_cons_self _ _)
    subst ha
    rw [hd] at hr
    simp [Isolates.Range, hd] at hr

theorem poolInv_loop {hs : Nat → V8goIsolate} {n : Nat} : ∀ {i : Nat} {s s1 : State}
    {r : Option Err}, PoolInv s → Resize.loop hs n i s = .done r s1 →
    PoolInv s1 ∧ s1.runtimeOption = s.runtimeOption ∧
      (s.isolates.Len ≤ s.runtimeOption.MaxSize → s1.isolates.Len ≤ s1.runtimeOption.MaxSize) := by
  induction n with
  | zero =>
    intro i s s1 r hinv hr
    simp only [Resize.loop, Res.done.injEq] at hr
    obtain ⟨_, rfl⟩ := hr
    exact ⟨hinv, rfl, fun hb => hb⟩
  | succ n ih =>
    intro i s s1 r hinv hr
    simp only [Resize.loop] at hr
    cases hn : NewIsolate s (hs i) with
    | done a s2 =>
      obtain ⟨a1, a2⟩ := a
      obtain ⟨hi2, ho2, hb2⟩ := poolInv_newIsolate hinv hn
      cases a2 with
      | none =>
        simp only [hn] at hr
        obtain ⟨hi3, ho3, hb3⟩ := ih hi2 hr
        exact ⟨hi3, by rw [ho3, ho2], fun hb => hb3 (hb2 hb)⟩
      | some err =>
        simp only [hn, Res.done.injEq] at hr
        obtain ⟨_, rfl⟩ := hr
        exact ⟨hi2, ho2, hb2⟩
    | panicked s2 => simp [hn] at hr
    | blocked s2 => simp [hn] at hr

theorem poolInv_resize {Validate : RuntimeOption → RuntimeOption} {s s1 : State}
    {minSize maxSize : Int} {hs : Nat → V8goIsolate} {r : Option Err} (hinv : PoolInv s)
    (hr : Isolates.Resize Validate s minSize maxSize hs = .done r s1) :
    PoolInv s1 ∧ s1.isolates.Len ≤ s1.runtimeOption.MaxSize := by
  simp only [Isolates.Resize] at hr
  split at hr
  · rename_i u s2 hrange
    obtain ⟨hd, rfl⟩ := range_poolInv hinv hrange
    have hlen : s2.isolates.Len = 0 := by
      rw [hinv.2.2.1, hd]
      rfl
    split_ifs at hr with hbig hneg hneg
    all_goals have hl := fun hp => poolInv_loop hp hr
    all_goals obtain ⟨hi3, _, hb3⟩ := hl (poolInv_congr rfl rfl hinv)
    all_goals refine ⟨hi3, hb3 ?_⟩
    all_goals simp only [hlen]
    all_goals omega
  · simp at hr
  · simp at hr

theorem poolInv_step {Validate : RuntimeOption → RuntimeOption} {s s1 : State} {op : Op}
    (hinv : PoolInv s) (hr : step Validate s op = some s1) :
    PoolInv s1 ∧
      (s.isolates.Len ≤ s.runtimeOption.MaxSize → s1.isolates.Len ≤ s1.runtimeOption.MaxSize) := by
  cases op with
  | newIsolate h =>
    simp only [step] at hr
    cases hn : NewIsolate s h with
    | done a s2 =>
      simp only [hn, Res.state, Option.some.injEq] at hr
      subst hr
      exact ⟨(poolInv_newIsolate hinv hn).1, (poolInv_newIsolate hinv hn).2.2⟩
    | panicked s2 => simp [hn, Res.state] at hr
    | blocked s2 => simp [hn, Res.state] at hr
  | selectIso =>
    simp only [step] at hr
    cases hn : SelectIso s with
    | done a s2 =>
      simp only [hn, Res.state, Option.some.injEq] at hr
      subst hr
      obtain ⟨h1, h2, h3⟩ := poolInv_selectIso hinv hn
      exact ⟨h1, fun hb => by rw [h2, h3]; exact hb⟩
    | panicked s2 => simp [hn, Res.state] at hr
    | blocked s2 => simp [hn, Res.state] at hr
  | unlock iso h =>
    simp only [step] at hr
    cases hn : Isolate.Unlock s iso h with
    | done a s2 =>
      simp only [hn, Res.state, Option.some.injEq] at hr
      subst hr
      exact ⟨(poolInv_unlock hinv hn).1, (poolInv_unlock hinv hn).2.2⟩
    | panicked s2 => simp [hn, Res.state] at hr
    | blocked s2 => simp [hn, Res.state] at hr
  | remove iso =>
    simp only [step] at hr
    cases hn : Isolates.Remove s iso with
    | done a s2 =>
      simp only [hn, Res.state, Option.some.injEq] at hr
      subst hr
      obtain ⟨h1, h2, h3⟩ := poolInv_remove hinv hn
      exact ⟨h1, fun hb => by rw [h2, h3]; omega⟩
    | panicked s2 => simp [hn, Res.state] at hr
    | blocked s2 => simp [hn, Res.state] at hr
  | resize minSize maxSize hs =>
    simp only [step] at hr
    cases hn : Isolates.Resize Validate s minSize maxSize hs with
    | done a s2 =>
      simp only [hn, Res.state, Option.some.injEq] at hr
      subst hr
      exact ⟨(poolInv_resize hinv hn).1, fun _ => (poolInv_resize hinv hn).2⟩
    | panicked s2 => simp [hn, Res.state] at hr
    | blocked s2 => simp [hn, Res.state] at hr
  | exec iso stat =>
    simp only [step] at hr
    obtain ⟨h1, h2, h3⟩ := poolInv_exec hinv hr
    exact ⟨h1, fun hb => by rw [h2, h3]; exact hb⟩

theorem poolInv_run {Validate : RuntimeOption → RuntimeOption} {ops : List Op} :
    ∀ {s s1 : State}, PoolInv s → run Validate s ops = some s1 →
    PoolInv s1 ∧
      (s.isolates.Len ≤ s.runtimeOption.MaxSize → s1.isolates.Len ≤ s1.runtimeOption.MaxSize) := by
  induction ops with
  | nil =>
    intro s s1 hinv hr
    simp only [run, Option.some.injEq] at hr
    subst hr
    exact ⟨hinv, fun hb => hb⟩
  | cons op ops ih =>
    intro s s1 hinv hr
    simp only [run] at hr
    cases hs : step Validate s op with
    | none => simp [hs] at hr
    | some s2 =>
      simp only [hs] at hr
      obtain ⟨h1, h2⟩ := poolInv_step hinv hs
      obtain ⟨h3, h4⟩ := ih h1 hr
      exact ⟨h3, fun hb => h4 (h2 hb)⟩

theorem poolInv_init (opt : RuntimeOption) : PoolInv (init opt) := by
  refine ⟨?_, ?_, ?_, ?_⟩
  · intro k hk
    simp [init] at hk
  · simp [init]
  · simp [init]
  · intro p o ho
    simp [init] at ho

theorem loop_creates (hs : Nat → V8goIsolate) (n : Nat) : ∀ (i : Nat) (s : State) (c : Chan),
    s.chIsoReady = some c →
    (∀ k ∈ s.isolates.Data, ∃ a, k = Any.str a ∧ a < s.heap.length) →
    s.isolates.Len + n ≤ s.runtimeOption.MaxSize → c.buf.length + n ≤ c.cap →
    ∃ s1, Resize.loop hs n i s = .done none s1 ∧
      s1.runtimeOption = s.runtimeOption ∧
      s1.isolates.Len = s.isolates.Len + n ∧
      s1.isolates.Data = s.isolates.Data ++ (List.range' s.heap.length n).map Isolate.Key ∧
      s1.chIsoReady = some { cap := c.cap, buf := c.buf ++ List.range' s.heap.length n } ∧
      (∀ (p : Nat) (o : Isolate), s.heap[p]? = some o → s1.heap[p]? = some o) ∧
      (∀ p ∈ List.range' s.heap.length n,
        ∃ o, s1.heap[p]? = some o ∧ o.status = .IsoReady ∧ o.Isolate ≠ none) := by
  induction n with
  | zero =>
    intro i s c hc _ _ _
    refine ⟨s, by simp [Resize.loop], rfl, by simp, by simp, by simp [hc], fun p o h => h, ?_⟩
    intro p hp
    simp at hp
  | succ n ih =>
    intro i s c hc h1 hlen hcap
    rcases newIsolate_cases s (hs i) with ⟨hle, _⟩ | ⟨c2, hc2, hn, _, _⟩ | ⟨_, hfull, _⟩
    · exfalso
      push_cast at hlen
      omega
    · rw [hc] at hc2
      simp only [Option.some.injEq] at hc2
      subst hc2
      have hfresh := mapStore_fresh h1
      obtain ⟨s1, hl, ho, hL, hD, hC, hold, hnew⟩ := ih (i + 1)
        { heap := s.heap ++ [{ Isolate := some (hs i), template := some (), status := .IsoReady }],
          isolates := { Data := mapStore s.isolates.Data (Isolate.Key s.heap.length),
                        Len := s.isolates.Len + 1 },
          chIsoReady := some { cap := c.cap, buf := c.buf ++ [s.heap.length] },
          runtimeOption := s.runtimeOption }
        { cap := c.cap, buf := c.buf ++ [s.heap.length] } rfl
        (by
          intro k hk
          simp only [hfresh, List.mem_append, List.mem_singleton] at hk
          rcases hk with hk | hk
          · obtain ⟨a, ha, hlt⟩ := h1 k hk
            exact ⟨a, ha, by simp; omega⟩
          · exact ⟨s.heap.length, hk, by simp⟩)
        (by simp only; push_cast at hlen; omega)
        (by simp only [List.length_append, List.length_singleton]; omega)
      refine ⟨s1, ?_, ho, ?_, ?_, ?_, ?_, ?_⟩
      · simp only [Resize.loop, hn]
        exact hl
      · rw [hL]
        push_cast
        omega
      · rw [hD, hfresh]
        simp [List.range'_succ, Isolate.Key]
      · rw [hC]
        simp [List.range'_succ]
      · intro p o hp
        exact hold p o (heap_append_old hp)
      · intro p hp
        simp only [List.range'_succ, List.mem_cons] at hp
        rcases hp with hp | hp
        · subst hp
          exact ⟨{ Isolate := some (hs i), template := some (), status := .IsoReady },
            hold _ _ (by simp), rfl, by simp⟩
        · refine hnew p ?_
          simpa using hp
    · exfalso
      exact hfull c hc (by omega)

/-! ## The channel invariant: once an instance exists the queue has capacity `MaxSize` -/

theorem wrapInt_of_range {x : Int} (hlo : -9223372036854775808 ≤ x)
    (hhi : x < 9223372036854775808) : wrapInt x = x := by
  unfold wrapInt
  omega

theorem chanInv_init (opt : RuntimeOption) : ChanInv (init opt) :=
  Or.inl ⟨rfl, rfl⟩

theorem chanInv_of_heap {s : State} {iso : Nat} {o : Isolate} (hinv : ChanInv s)
    (ho : s.heap[iso]? = some o) :
    ∃ c, s.chIsoReady = some c ∧ c.cap = s.runtimeOption.MaxSize.toNat := by
  rcases hinv with ⟨_, hh⟩ | hright
  · rw [hh] at ho
    simp at ho
  · exact hright

theorem chanInv_newIsolate {s s1 : State} {h : V8goIsolate} {r : Option Nat × Option Err}
    (hinv : ChanInv s) (hr : NewIsolate s h = .done r s1) : ChanInv s1 := by
  rcases newIsolate_cases s h with ⟨_, hn⟩ | ⟨c2, hc2, hn, _, _⟩ | ⟨_, _, s2, hn⟩
  · rw [hn] at hr
    simp only [Res.done.injEq] at hr
    obtain ⟨_, rfl⟩ := hr
    exact hinv
  · rw [hn] at hr
    simp only [Res.done.injEq] at hr
    obtain ⟨_, rfl⟩ := hr
    rcases hinv with ⟨hnone, _⟩ | ⟨c, hc, hcap⟩
    · rw [hnone] at hc2
      simp at hc2
    · rw [hc] at hc2
      simp only [Option.some.injEq] at hc2
      subst hc2
      exact Or.inr ⟨_, rfl, hcap⟩
  · rw [hn] at hr
    simp at hr

theorem chanInv_remove {s s1 : State} {iso : Nat} (hinv : ChanInv s)
    (hr : Isolates.Remove s iso = .done () s1) : ChanInv s1 := by
  rcases remove_cases s iso with ⟨o, v, ho, _, hn⟩ | ⟨s2, hn⟩
  · rw [hn] at hr
    simp only [Res.done.injEq, true_and] at hr
    subst hr
    obtain ⟨c, hc, hcap⟩ := chanInv_of_heap hinv ho
    exact Or.inr ⟨c, hc, hcap⟩
  · rw [hn] at hr
    simp at hr

theorem chanInv_selectIso {s s1 : State} {r : Option Nat × Option Err} (hinv : ChanInv s)
    (hr : SelectIso s = .done r s1) : ChanInv s1 := by
  rcases selectIso_cases s with hn | ⟨c, a, rest, o, hc, _, ho, hn⟩ | ⟨s2, hn⟩
  · rw [hn] at hr
    simp only [Res.done.injEq] at hr
    obtain ⟨_, rfl⟩ := hr
    exact hinv
  · rw [hn] at hr
    simp only [Res.done.injEq] at hr
    obtain ⟨_, rfl⟩ := hr
    obtain ⟨c1, hc1, hcap⟩ := chanInv_of_heap hinv ho
    rw [hc] at hc1
    simp only [Option.some.injEq] at hc1
    subst hc1
    exact Or.inr ⟨_, rfl, hcap⟩
  · rw [hn] at hr
    simp at hr

theorem chanInv_exec {s s1 : State} {iso : Nat} {stat : HeapStatistics} (hinv : ChanInv s)
    (hr : exec s iso stat = some s1) : ChanInv s1 := by
  unfold exec at hr
  cases ho : s.heap[iso]? with
  | none => simp [ho] at hr
  | some o =>
    cases hv : o.Isolate with
    | none => simp [ho, hv] at hr
    | some v =>
      simp only [ho, hv, Option.some.injEq, State.store] at hr
      subst hr
      obtain ⟨c, hc, hcap⟩ := chanInv_of_heap hinv ho
      exact Or.inr ⟨c, hc, hcap⟩

theorem chanInv_unlock {s s1 : State} {iso : Nat} {h : V8goIsolate} {r : Option Err}
    (hinv : ChanInv s) (hr : Isolate.Unlock s iso h = .done r s1) : ChanInv s1 := by
  cases ho : s.heap[iso]? with
  | none => simp [Isolate.Unlock, ho] at hr
  | some o =>
    obtain ⟨c, hc, hcap⟩ := chanInv_of_heap hinv ho
    by_cases hcond : (Isolate.health o s.runtimeOption
          && decide ((chanLen s.chIsoReady : Int) ≤ wrapInt (s.runtimeOption.MinSize - 1))) = true
    · simp only [Isolate.Unlock, ho, hcond, if_true] at hr
      simp only [send, State.store, hc] at hr
      by_cases hroom : c.buf.length < c.cap
      · simp only [hroom, if_true, Res.done.injEq] at hr
        obtain ⟨_, rfl⟩ := hr
        exact Or.inr ⟨_, rfl, hcap⟩
      · simp [hroom] at hr
    · simp only [Isolate.Unlock, ho, hcond] at hr
      simp only [Bool.false_eq_true, if_false] at hr
      cases hrem : Isolates.Remove s iso with
      | done u s2 =>
        have hi2 := chanInv_remove hinv hrem
        simp only [hrem] at hr
        split_ifs at hr with hfloor
        · cases hn : NewIsolate s2 h with
          | done a s3 =>
            rw [hn] at hr
            simp only [Res.done.injEq] at hr
            obtain ⟨_, rfl⟩ := hr
            exact chanInv_newIsolate hi2 hn
          | panicked s3 => rw [hn] at hr; simp at hr
          | blocked s3 => rw [hn] at hr; simp at hr
        · simp only [Res.done.injEq] at hr
          obtain ⟨_, rfl⟩ := hr
          exact hi2
      | panicked s2 => simp [hrem] at hr
      | blocked s2 => simp [hrem] at hr

theorem chanInv_loop {hs : Nat → V8goIsolate} {n : Nat} : ∀ {i : Nat} {s s1 : State}
    {r : Option Err}, ChanInv s → Resize.loop hs n i s = .done r s1 → ChanInv s1 := by
  induction n with
  | zero =>
    intro i s s1 r hinv hr
    simp only [Resize.loop, Res.done.injEq] at hr
    obtain ⟨_, rfl⟩ := hr
    exact hinv
  | succ n ih =>
    intro i s s1 r hinv hr
    simp only [Resize.loop] at hr
    cases hn : NewIsolate s (hs i) with
    | done a s2 =>
      obtain ⟨a1, a2⟩ := a
      have h2 := chanInv_newIsolate hinv hn
      cases a2 with
      | none =>
        simp only [hn] at hr
        exact ih h2 hr
      | some err =>
        simp only [hn, Res.done.injEq] at hr
        obtain ⟨_, rfl⟩ := hr
        exact h2
    | panicked s2 => simp [hn] at hr
    | blocked s2 => simp [hn] at hr

theorem chanInv_resize {Validate : RuntimeOption → RuntimeOption} {s s1 : State}
    {minSize maxSize : Int} {hs : Nat → V8goIsolate} {r : Option Err}
    (hr : Isolates.Resize Validate s minSize maxSize hs = .done r s1) : ChanInv s1 := by
  simp only [Isolates.Resize] at hr
  split at hr
  · split_ifs at hr
    all_goals refine chanInv_loop ?_ hr
    all_goals exact Or.inr ⟨_, rfl, rfl⟩
  · simp at hr
  · simp at hr

theorem chanInv_step {Validate : RuntimeOption → RuntimeOption} {s s1 : State} {op : Op}
    (hinv : ChanInv s) (hr : step Validate s op = some s1) : ChanInv s1 := by
  cases op with
  | newIsolate h =>
    simp only [step] at hr
    cases hn : NewIsolate s h with
    | done a s2 =>
      simp only [hn, Res.state, Option.some.injEq] at hr
      subst hr
      exact chanInv_newIsolate hinv hn
    | panicked s2 => simp [hn, Res.state] at hr
    | blocked s2 => simp [hn, Res.state] at hr
  | selectIso =>
    simp only [step] at hr
    cases hn : SelectIso s with
    | done a s2 =>
      simp only [hn, Res.state, Option.some.injEq] at hr
      subst hr
      exact chanInv_selectIso hinv hn
    | panicked s2 => simp [hn, Res.state] at hr
    | blocked s2 => simp [hn, Res.state] at hr
  | unlock iso h =>
    simp only [step] at hr
    cases hn : Isolate.Unlock s iso h with
    | done a s2 =>
      simp only [hn, Res.state, Option.some.injEq] at hr
      subst hr
      exact chanInv_unlock hinv hn
    | panicked s2 => simp [hn, Res.state] at hr
    | blocked s2 => simp [hn, Res.state] at hr
  | remove iso =>
    simp only [step] at hr
    cases hn : Isolates.Remove s iso with
    | done a s2 =>
      simp only [hn, Res.state, Option.some.injEq] at hr
      subst hr
      exact chanInv_remove hinv hn
    | panicked s2 => simp [hn, Res.state] at hr
    | blocked s2 => simp [hn, Res.state] at hr
  | resize minSize maxSize hs =>
    simp only [step] at hr
    cases hn : Isolates.Resize Validate s minSize maxSize hs with
    | done a s2 =>
      simp only [hn, Res.state, Option.some.injEq] at hr
      subst hr
      exact chanInv_resize hn
    | panicked s2 => simp [hn, Res.state] at hr
    | blocked s2 => simp [hn, Res.state] at hr
  | exec iso stat =>
    simp only [step] at hr
    exact chanInv_exec hinv hr

theorem chanInv_run {Validate : RuntimeOption → RuntimeOption} {ops : List Op} :
    ∀ {s s1 : State}, ChanInv s → run Validate s ops = some s1 → ChanInv s1 := by
  induction ops with
  | nil =>
    intro s s1 hinv hr
    simp only [run, Option.some.injEq] at hr
    subst hr
    exact hinv
  | cons op ops ih =>
    intro s s1 hinv hr
    simp only [run] at hr
    cases hs : step Validate s op with
    | none => simp [hs] at hr
    | some s2 =>
      simp only [hs] at hr
      exact ih (chanInv_step hinv hs) hr

/-- A healthy instance released into a created queue with a free slot and a length at or
below the floor `MinSize-1` is put back in the queue. -/
theorem unlock_requeue_of_room {s : State} {iso : Nat} {o : Isolate} {c : Chan}
    (h : V8goIsolate) (ho : s.heap[iso]? = some o)
    (hhealth : Isolate.health o s.runtimeOption = true)
    (hc : s.chIsoReady = some c) (hroom : c.buf.length < c.cap)
    (hle : (c.buf.length : Int) ≤ wrapInt (s.runtimeOption.MinSize - 1)) :
    Isolate.Unlock s iso h = .done none
      { heap := s.heap.set iso { Isolate := o.Isolate, template := o.template, status := .IsoReady },
        isolates := s.isolates,
        chIsoReady := some { cap := c.cap, buf := c.buf ++ [iso] },
        runtimeOption := s.runtimeOption } := by
  simp [Isolate.Unlock, ho, hhealth, hc, chanLen, hle, send, State.store, hroom]

/-! ## The claims -/

/-- C1 (amended): on every pool state whose readiness queue has been created, `NewIsolate`
returns a capacity error if and only if `isolates.Len` is at or above
`runtimeOption.MaxSize`, and then the whole state (live set, live count, queue, every
status) is unchanged; otherwise, provided the queue is not full, it returns a new instance
with status Ready, `Len` grows by exactly 1, the key of the new instance is registered and
the new instance is appended to the queue. -/
theorem newIsolate_contract (s : State) (c : Chan) (h : V8goIsolate)
    (hc : s.chIsoReady = some c) :
    ((∃ r s1, NewIsolate s h = .done (r, some (.capacity s.runtimeOption.MaxSize)) s1) ↔
        s.runtimeOption.MaxSize ≤ s.isolates.Len) ∧
    (s.runtimeOption.MaxSize ≤ s.isolates.Len →
        NewIsolate s h = .done (none, some (.capacity s.runtimeOption.MaxSize)) s) ∧
    (s.isolates.Len < s.runtimeOption.MaxSize → c.buf.length < c.cap →
        NewIsolate s h = .done (some s.heap.length, none)
          { heap := s.heap ++ [{ Isolate := some h, template := some (), status := .IsoReady }],
            isolates := { Data := mapStore s.isolates.Data (Isolate.Key s.heap.length),
                          Len := s.isolates.Len + 1 },
            chIsoReady := some { cap := c.cap, buf := c.buf ++ [s.heap.length] },
            runtimeOption := s.runtimeOption } ∧
        Isolate.Key s.heap.length ∈ mapStore s.isolates.Data (Isolate.Key s.heap.length)) := by
  refine ⟨?_, ?_, ?_⟩
  · constructor
    · rintro ⟨r, s1, hr⟩
      rcases newIsolate_cases s h with ⟨hle, _⟩ | ⟨c2, _, hn, _, _⟩ | ⟨_, _, s2, hn⟩
      · exact hle
      · rw [hn] at hr
        simp at hr
      · rw [hn] at hr
        simp at hr
    · intro hle
      exact ⟨none, s, by simp [NewIsolate, hle]⟩
  · intro hle
    simp [NewIsolate, hle]
  · intro hlt hroom
    have hnl : ¬ s.runtimeOption.MaxSize ≤ s.isolates.Len := by omega
    constructor
    · simp [NewIsolate, hnl, newIsolate_eq, Isolates.Add, send, hc, hroom]
    · unfold mapStore
      split_ifs with hm
      · exact hm
      · simp

/-- C1 witness: on the pool left by `Resize(1, 2)` (one live instance, ceiling 2, queue of
capacity 2 holding one instance) `NewIsolate` creates instance 1, registers and queues it,
and the live count becomes 2. -/
theorem newIsolate_contract_witness :
    NewIsolate exResized12 exHandle = .done (some 1, none)
      { heap := [exReady, exReady],
        isolates := { Data := [.str 0, .str 1], Len := 2 },
        chIsoReady := some { cap := 2, buf := [0, 1] },
        runtimeOption := exResized12.runtimeOption } :=
  ((newIsolate_contract exResized12 { cap := 2, buf := [0] } exHandle rfl).2.2
    (by decide) (by decide)).1

/-- C1 counterexample: the state `fullQueueState` is reached from the initial state by
`Resize(1, 1)` and `Isolates.Remove` of the queued instance; its queue has been created and
its live count 0 is below the ceiling 1, yet `NewIsolate` returns nothing: it registers the
new instance, raises `Len`, and blocks in the send of `Add` because the queue is full. -/
theorem newIsolate_blocks_on_full_queue :
    run id (init exOpt) [.resize 1 1 exHandles, .remove 0] = some fullQueueState ∧
    fullQueueState.chIsoReady = some { cap := 1, buf := [0] } ∧
    fullQueueState.isolates.Len < fullQueueState.runtimeOption.MaxSize ∧
    NewIsolate fullQueueState exHandle = .blocked
      { heap := [{ Isolate := none, template := none, status := .IsoReady }, exReady],
        isolates := { Data := [.str 1], Len := 1 },
        chIsoReady := some { cap := 1, buf := [0] },
        runtimeOption := fullQueueState.runtimeOption } ∧
    ¬ ∃ r s1, NewIsolate fullQueueState exHandle = .done r s1 := by
  have hb : NewIsolate fullQueueState exHandle = .blocked
      { heap := [{ Isolate := none, template := none, status := .IsoReady }, exReady],
        isolates := { Data := [.str 1], Len := 1 },
        chIsoReady := some { cap := 1, buf := [0] },
        runtimeOption := fullQueueState.runtimeOption } := rfl
  refine ⟨rfl, rfl, by decide, hb, ?_⟩
  rintro ⟨r, s1, hr⟩
  rw [hb] at hr
  cases hr

/-- C2: starting from the state left by a completed `Resize` (run on any state the pool
reaches from its initial state), after every finite sequence of the steps `NewIsolate`,
`SelectIso`, `Unlock`, `Isolates.Remove` and `Resize` (and of changes of heap figures), each
of which returns, `isolates.Len` does not exceed the `runtimeOption.MaxSize` in force. -/
theorem live_count_bounded (Validate : RuntimeOption → RuntimeOption) (opt : RuntimeOption)
    (pre ops : List Op) (minSize maxSize : Int) (hs : Nat → V8goIsolate) (s0 s1 s2 : State)
    (hpre : run Validate (init opt) pre = some s0)
    (hres : step Validate s0 (.resize minSize maxSize hs) = some s1)
    (hrun : run Validate s1 ops = some s2) :
    s2.isolates.Len ≤ s2.runtimeOption.MaxSize := by
  have h0 := (poolInv_run (poolInv_init opt) hpre).1
  simp only [step] at hres
  cases hn : Isolates.Resize Validate s0 minSize maxSize hs with
  | done a s3 =>
    simp only [hn, Res.state, Option.some.injEq] at hres
    subst hres
    obtain ⟨h1, h2⟩ := poolInv_resize h0 hn
    exact (poolInv_run h1 hrun).2 h2
  | panicked s3 => simp [hn, Res.state] at hres
  | blocked s3 => simp [hn, Res.state] at hres

/-- C2 witness: `Resize(2, 3)` on the initial state leaves `exResized23`; six further steps
(an acquisition, a creation, a release that retires, an acquisition, a heap growth, a
release that retires and replaces) lead to `exAfterTrace`, whose live count 2 is within the
ceiling 3. -/
theorem live_count_bounded_witness :
    step id (init exOpt) (.resize 2 3 exHandles) = some exResized23 ∧
    run id exResized23
      [.selectIso, .newIsolate exHandle, .unlock 0 exHandle, .selectIso,
        .exec 1 { TotalHeapSize := 500, TotalAvailableSize := 20 }, .unlock 1 exHandle]
      = some exAfterTrace ∧
    exAfterTrace.isolates.Len ≤ exAfterTrace.runtimeOption.MaxSize :=
  ⟨rfl, rfl, live_count_bounded id exOpt []
    [.selectIso, .newIsolate exHandle, .unlock 0 exHandle, .selectIso,
      .exec 1 { TotalHeapSize := 500, TotalAvailableSize := 20 }, .unlock 1 exHandle]
    2 3 exHandles (init exOpt) exResized23 exAfterTrace rfl rfl rfl⟩

/-- C3 (the code at the failing input): on every pool state whose live set holds a key
stored by `Isolates.Add` that the traversal visits first, `Isolates.Range` panics in the
type assertion `key.(*Isolate)` before the callback is handed anything, and so
`Resize` panics with the state untouched: no instance is unregistered and none is
disposed. -/
theorem resize_live_panics (Validate : RuntimeOption → RuntimeOption) (s : State)
    (minSize maxSize : Int) (hs : Nat → V8goIsolate) (iso : Nat) (rest : List Any)
    (hd : s.isolates.Data = Isolate.Key iso :: rest) :
    (∀ callback, Isolates.Range callback s.isolates.Data s = .panicked s) ∧
    Isolates.Resize Validate s minSize maxSize hs = .panicked s := by
  have hr : ∀ callback, Isolates.Range callback s.isolates.Data s = .panicked s := by
    intro callback
    rw [hd]
    simp [Isolates.Range, hd, Isolate.Key]
  refine ⟨hr, ?_⟩
  simp only [Isolates.Resize, hr]

/-- C3 witness: the pool left by `Resize(1, 2)` holds one live instance; a second
`Resize(1, 2)` panics and leaves that instance registered with its native handle. -/
theorem resize_live_panics_witness :
    exResized12.isolates.Data = [Isolate.Key 0] ∧
    Isolates.Resize id exResized12 1 2 exHandles = .panicked exResized12 :=
  ⟨rfl, (resize_live_panics id exResized12 1 2 exHandles 0 [] rfl).2⟩

/-- C4: let `s` be any state the pool reaches from its initial state, and let
`0 ≤ minSize ≤ min(maxSize, 100)` and `maxSize ≥ 1`, with `Validate` leaving these two values
unchanged.  `Resize(minSize, maxSize)` completes when no instance is live, and whenever it
completes it returns no error, the ceiling in force is `min(maxSize, 100)`, the queue is a
new queue of that capacity, and exactly `minSize` instances exist: `Len = minSize`, the live
set has `minSize` keys, and the queue holds exactly those `minSize` instances, all newly
allocated, each Ready with its native handle. -/
theorem resize_postcondition (Validate : RuntimeOption → RuntimeOption) (opt : RuntimeOption)
    (ops : List Op) (s : State) (minSize maxSize : Int) (hs : Nat → V8goIsolate)
    (hreach : run Validate (init opt) ops = some s)
    (hmin : 0 ≤ minSize) (hle : minSize ≤ min maxSize 100) (hmax : 1 ≤ maxSize)
    (hV1 : (Validate { s.runtimeOption with MinSize := minSize, MaxSize := min maxSize 100 }).MinSize
      = minSize)
    (hV2 : (Validate { s.runtimeOption with MinSize := minSize, MaxSize := min maxSize 100 }).MaxSize
      = min maxSize 100) :
    (s.isolates.Data = [] →
      ∃ s1, Isolates.Resize Validate s minSize maxSize hs = .done none s1) ∧
    (∀ r s1, Isolates.Resize Validate s minSize maxSize hs = .done r s1 →
      r = none ∧
      s1.runtimeOption.MaxSize = min maxSize 100 ∧
      s1.chIsoReady = some { cap := (min maxSize 100).toNat,
                             buf := List.range' s.heap.length minSize.toNat } ∧
      s1.isolates.Len = minSize ∧
      s1.isolates.Data = (List.range' s.heap.length minSize.toNat).map Isolate.Key ∧
      (s1.isolates.Data.length : Int) = minSize ∧
      ((List.range' s.heap.length minSize.toNat).length : Int) = minSize ∧
      (∀ p ∈ List.range' s.heap.length minSize.toNat,
        s.heap[p]? = none ∧
        ∃ o, s1.heap[p]? = some o ∧ o.status = .IsoReady ∧ o.Isolate ≠ none)) := by
  have hinv := (poolInv_run (poolInv_init opt) hreach).1
  have hclamp : (if maxSize > 100 then 100 else maxSize) = min maxSize 100 := by
    split_ifs with h
    · exact (min_eq_right (le_of_lt h)).symm
    · exact (min_eq_left (not_lt.mp h)).symm
  have key : s.isolates.Data = [] →
      ∃ s1, Isolates.Resize Validate s minSize maxSize hs = .done none s1 ∧
        s1.runtimeOption.MaxSize = min maxSize 100 ∧
        s1.chIsoReady = some { cap := (min maxSize 100).toNat,
                               buf := List.range' s.heap.length minSize.toNat } ∧
        s1.isolates.Len = minSize ∧
        s1.isolates.Data = (List.range' s.heap.length minSize.toNat).map Isolate.Key ∧
        (∀ p ∈ List.range' s.heap.length minSize.toNat,
          ∃ o, s1.heap[p]? = some o ∧ o.status = .IsoReady ∧ o.Isolate ≠ none) := by
    intro hd
    have hlen : s.isolates.Len = 0 := by
      rw [hinv.2.2.1, hd]
      rfl
    have hpos : ¬ min maxSize 100 < 0 := by
      have : (1 : Int) ≤ min maxSize 100 := le_min hmax (by norm_num)
      omega
    obtain ⟨s1, hl, ho, hL, hD, hC, _, hnew⟩ := loop_creates hs minSize.toNat 0
      { heap := s.heap, isolates := s.isolates,
        chIsoReady := some { cap := (min maxSize 100).toNat, buf := [] },
        runtimeOption := Validate
          { s.runtimeOption with MinSize := minSize, MaxSize := min maxSize 100 } }
      { cap := (min maxSize 100).toNat, buf := [] } rfl
      (by simp [hd])
      (by simp only [hlen, hV2]; rw [Int.toNat_of_nonneg hmin]; omega)
      (by simp only [List.length_nil]; omega)
    refine ⟨s1, ?_, ?_, ?_, ?_, ?_, hnew⟩
    · simp only [Isolates.Resize, hd, Isolates.Range, hclamp, hV1, hV2, hpos, if_false]
      exact hl
    · rw [ho]
      exact hV2
    · rw [hC]
      simp
    · rw [hL]
      simp only [hlen, Int.toNat_of_nonneg hmin]
      omega
    · rw [hD]
      simp [hd]
  refine ⟨fun hd => ?_, ?_⟩
  · obtain ⟨s1, h1, _⟩ := key hd
    exact ⟨s1, h1⟩
  · intro r s1 hr
    have hd : s.isolates.Data = [] := by
      cases hdata : s.isolates.Data with
      | nil => rfl
      | cons k ks =>
        exfalso
        obtain ⟨a, ha, _⟩ := hinv.1 k (by rw [hdata]; exact List.mem_cons_self _ _)
        subst ha
        simp [Isolates.Resize, Isolates.Range, hdata] at hr
    obtain ⟨s2, h1, h2, h3, h4, h5, h6⟩ := key hd
    rw [h1] at hr
    simp only [Res.done.injEq] at hr
    obtain ⟨rfl, rfl⟩ := hr
    refine ⟨rfl, h2, h3, h4, h5, ?_, ?_, ?_⟩
    · rw [h5]
      simp only [List.length_map, List.length_range']
      exact Int.toNat_of_nonneg hmin
    · simp only [List.length_range']
      exact Int.toNat_of_nonneg hmin
    · intro p hp
      refine ⟨?_, h6 p hp⟩
      simp only [List.mem_range'_1] at hp
      exact List.getElem?_eq_none_iff.mpr hp.1

/-- C4 witness: `Resize(2, 3)` on the initial state completes without error and leaves
`exResized23`: ceiling 3, a queue of capacity 3 holding the two new instances 0 and 1, and
live count 2. -/
theorem resize_postcondition_witness :
    Isolates.Resize id (init exOpt) 2 3 exHandles = .done none exResized23 ∧
    exResized23.runtimeOption.MaxSize = min 3 100 ∧
    exResized23.chIsoReady = some { cap := 3, buf := [0, 1] } ∧
    exResized23.isolates.Len = 2 :=
  have h := (resize_postcondition id exOpt [] (init exOpt) 2 3 exHandles rfl (by decide)
    (by decide) (by decide) rfl rfl).2 none exResized23 rfl
  ⟨rfl, h.2.1, h.2.2.1, h.2.2.2.1⟩

/-- C5: for every state the pool reaches from its initial state, with the floor in force
not above the ceiling (`MinSize ≤ MaxSize`, a Go `int`), every instance whose `health()` is
true, and a readiness-queue length strictly below `MinSize - 1`: `Unlock` returns nil, sets
the status of the instance to Ready and appends that very instance to the queue, whose
length grows by exactly 1; the live set, the live count and the native handle of the
instance are unchanged. -/
theorem unlock_requeues_under_floor (Validate : RuntimeOption → RuntimeOption)
    (opt : RuntimeOption) (ops : List Op) (s : State) (iso : Nat) (o : Isolate)
    (h : V8goIsolate)
    (hreach : run Validate (init opt) ops = some s)
    (hfloor : s.runtimeOption.MinSize ≤ s.runtimeOption.MaxSize)
    (hint : s.runtimeOption.MaxSize < 9223372036854775808)
    (ho : s.heap[iso]? = some o)
    (hhealth : Isolate.health o s.runtimeOption = true)
    (hlen : (chanLen s.chIsoReady : Int) < s.runtimeOption.MinSize - 1) :
    ∃ c, s.chIsoReady = some c ∧
      Isolate.Unlock s iso h = .done none
        { heap := s.heap.set iso
            { Isolate := o.Isolate, template := o.template, status := .IsoReady },
          isolates := s.isolates,
          chIsoReady := some { cap := c.cap, buf := c.buf ++ [iso] },
          runtimeOption := s.runtimeOption } := by
  obtain ⟨c, hc, hcap⟩ := chanInv_of_heap (chanInv_run (chanInv_init opt) hreach) ho
  simp only [hc, chanLen] at hlen
  have hw : wrapInt (s.runtimeOption.MinSize - 1) = s.runtimeOption.MinSize - 1 :=
    wrapInt_of_range (by omega) (by omega)
  refine ⟨c, hc, unlock_requeue_of_room h ho hhealth hc ?_ ?_⟩
  · rw [hcap]
    omega
  · rw [hw]
    omega

/-- C5 witness: `heldUnderFloor` is reached by `Resize(3, 5)` and two acquisitions; the queue
holds one instance, below `MinSize - 1 = 2`, and releasing the healthy held instance 0 puts
that same instance back at the end of the queue with status Ready. -/
theorem unlock_requeues_under_floor_witness :
    run id (init exOpt) [.resize 3 5 exHandles, .selectIso, .selectIso] = some heldUnderFloor ∧
    ∃ c, heldUnderFloor.chIsoReady = some c ∧
      Isolate.Unlock heldUnderFloor 0 exHandle = .done none
        { heap := heldUnderFloor.heap.set 0 exReady,
          isolates := heldUnderFloor.isolates,
          chIsoReady := some { cap := c.cap, buf := c.buf ++ [0] },
          runtimeOption := heldUnderFloor.runtimeOption } :=
  ⟨rfl, unlock_requeues_under_floor id exOpt
    [.resize 3 5 exHandles, .selectIso, .selectIso] heldUnderFloor 0 exBusy exHandle rfl
    (by decide) (by decide) rfl rfl (by decide)⟩

/-- C6 (amended): let `MinSize` be a Go `int` above the least one, so that `MinSize - 1` does
not wrap.  `Unlock` puts the released instance back in the readiness queue only if the
instance is healthy and the queue length is at most `MinSize - 1`; and for every healthy
instance released while the queue length is `MinSize` or more, `Unlock` does not re-queue it
but retires it: its key is deleted from the live set, `Len` drops by 1, and it is disposed
(native handle and template nil). -/
theorem unlock_retires_at_floor (s : State) (iso : Nat) (o : Isolate) (h : V8goIsolate)
    (ho : s.heap[iso]? = some o)
    (hlo : -9223372036854775808 < s.runtimeOption.MinSize)
    (hhi : s.runtimeOption.MinSize < 9223372036854775808) :
    (∀ r s1 c c1, Isolate.Unlock s iso h = .done r s1 → s.chIsoReady = some c →
        s1.chIsoReady = some c1 → c1.buf = c.buf ++ [iso] →
        Isolate.health o s.runtimeOption = true ∧
          (chanLen s.chIsoReady : Int) ≤ s.runtimeOption.MinSize - 1) ∧
    (Isolate.health o s.runtimeOption = true →
        s.runtimeOption.MinSize ≤ (chanLen s.chIsoReady : Int) →
        Isolate.Unlock s iso h = .done none
          { heap := s.heap.set iso { Isolate := none, template := none, status := o.status },
            isolates := { Data := s.isolates.Data.erase (Isolate.Key iso),
                          Len := s.isolates.Len - 1 },
            chIsoReady := s.chIsoReady,
            runtimeOption := s.runtimeOption }) := by
  have hlt := heap_lt ho
  have hw : wrapInt (s.runtimeOption.MinSize - 1) = s.runtimeOption.MinSize - 1 :=
    wrapInt_of_range (by omega) (by omega)
  constructor
  · intro r s1 c c1 hr hc hc1 hbuf
    by_contra hcon
    have hcond : (Isolate.health o s.runtimeOption
        && decide ((chanLen s.chIsoReady : Int) ≤ wrapInt (s.runtimeOption.MinSize - 1)))
          = false := by
      cases hh : Isolate.health o s.runtimeOption
      · simp
      · simp only [Bool.true_and, decide_eq_false_iff_not]
        intro hle
        rw [hw] at hle
        exact hcon ⟨hh, hle⟩
    cases hiso : o.Isolate with
    | none =>
      simp [Isolate.Unlock, ho, hcond, remove_panicked_of_nil ho hiso] at hr
    | some v =>
      simp only [Isolate.Unlock, ho, hcond, remove_done ho hiso] at hr
      simp only [Bool.false_eq_true, if_false] at hr
      split_ifs at hr with hfloor
      · rcases newIsolate_cases
            { heap := s.heap.set iso { Isolate := none, template := none, status := o.status },
              isolates := { Data := s.isolates.Data.erase (Isolate.Key iso),
                            Len := s.isolates.Len - 1 },
              chIsoReady := s.chIsoReady,
              runtimeOption := s.runtimeOption } h with
          ⟨_, hn⟩ | ⟨c2, hc2, hn, _, _⟩ | ⟨_, _, s2, hn⟩
        · rw [hn] at hr
          simp only [Res.done.injEq] at hr
          obtain ⟨_, rfl⟩ := hr
          simp only [hc, Option.some.injEq] at hc1
          subst hc1
          simp at hbuf
        · rw [hn] at hr
          simp only [Res.done.injEq] at hr
          obtain ⟨_, rfl⟩ := hr
          simp only [hc, Option.some.injEq] at hc2
          subst hc2
          simp only [Option.some.injEq] at hc1
          subst hc1
          simp at hbuf
          omega
        · rw [hn] at hr
          simp at hr
      · simp only [Res.done.injEq] at hr
        obtain ⟨_, rfl⟩ := hr
        simp only [hc, Option.some.injEq] at hc1
        subst hc1
        simp at hbuf
  · intro hh hge
    have hcond : ¬ ((chanLen s.chIsoReady : Int) ≤ wrapInt (s.runtimeOption.MinSize - 1)) := by
      rw [hw]
      omega
    have hsome : ∃ v, o.Isolate = some v := by
      cases hiso : o.Isolate with
      | none => simp [Isolate.health, hiso] at hh
      | some v => exact ⟨v, rfl⟩
    obtain ⟨v, hv⟩ := hsome
    simp [Isolate.Unlock, ho, hh, hcond, remove_done ho hv]

/-- C6 witness: with floor 0 and an empty queue (length 0, which is `MinSize` or more), the
healthy held instance 0 is retired by `Unlock`: unregistered, `Len` from 1 to 0, handle and
template nil. -/
theorem unlock_retires_at_floor_witness :
    Isolate.Unlock heldAboveFloor 0 exHandle = .done none
      { heap := [{ Isolate := none, template := none, status := .IsoBusy }],
        isolates := { Data := [], Len := 0 },
        chIsoReady := some { cap := 5, buf := [] },
        runtimeOption := heldAboveFloor.runtimeOption } :=
  (unlock_retires_at_floor heldAboveFloor 0 exBusy exHandle rfl (by decide) (by decide)).2 rfl
    (by decide)

/-- C6 counterexample: in `heldAtFloor`, reached from the initial state by `Resize(1, 2)` and
`SelectIso`, the queue length 0 is exactly `MinSize - 1`; `Unlock` of the healthy instance 0
re-queues it and retires nothing: the live set and `Len` are unchanged and the native
handle is kept. -/
theorem unlock_requeues_at_floor_minus_one :
    run id (init exOpt) [.resize 1 2 exHandles, .selectIso] = some heldAtFloor ∧
    Isolate.health exBusy heldAtFloor.runtimeOption = true ∧
    (chanLen heldAtFloor.chIsoReady : Int) = heldAtFloor.runtimeOption.MinSize - 1 ∧
    Isolate.Unlock heldAtFloor 0 exHandle = .done none
      { heap := [exReady],
        isolates := { Data := [.str 0], Len := 1 },
        chIsoReady := some { cap := 2, buf := [0] },
        runtimeOption := heldAtFloor.runtimeOption } :=
  ⟨rfl, rfl, by decide, rfl⟩

/-- The floor wraps at the least `int`: with `MinSize = math.MinInt64` the floor `MinSize-1`
is the greatest `int`, so the healthy instance is re-queued although the queue length 0 is
above `MinSize`. -/
theorem unlock_requeues_at_least_int :
    wrapInt (heldAtLeastInt.runtimeOption.MinSize - 1) = 9223372036854775807 ∧
    Isolate.Unlock heldAtLeastInt 0 exHandle = .done none
      { heap := [exReady],
        isolates := { Data := [.str 0], Len := 1 },
        chIsoReady := some { cap := 5, buf := [0] },
        runtimeOption := heldAtLeastInt.runtimeOption } :=
  ⟨by decide, rfl⟩

/-- C7 (the code at the failing input): for every instance whose native handle is absent,
`health()` is false and `Unlock` takes the retirement path, deletes the key, decrements
`Len`, and then panics in `Dispose` on the nil handle: the retirement step does not
complete. -/
theorem unlock_nil_handle_panics (s : State) (iso : Nat) (o : Isolate) (h : V8goIsolate)
    (ho : s.heap[iso]? = some o) (hnil : o.Isolate = none) :
    Isolate.health o s.runtimeOption = false ∧
    Isolate.Unlock s iso h = .panicked
      { heap := s.heap,
        isolates := { Data := s.isolates.Data.erase (Isolate.Key iso), Len := s.isolates.Len - 1 },
        chIsoReady := s.chIsoReady,
        runtimeOption := s.runtimeOption } := by
  have hh : Isolate.health o s.runtimeOption = false := by simp [Isolate.health, hnil]
  refine ⟨hh, ?_⟩
  simp [Isolate.Unlock, ho, hh, remove_panicked_of_nil ho hnil]

/-- C7 witness: `retiredState` is reached from the initial state by `Resize(1, 2)`,
`SelectIso`, a heap growth of instance 0 and `Unlock(0)`; releasing instance 0 once more
panics, with `Len` lowered from 1 to 0 although instance 1 is still registered. -/
theorem unlock_nil_handle_panics_witness :
    run id (init exOpt)
      [.resize 1 2 exHandles, .selectIso,
        .exec 0 { TotalHeapSize := 500, TotalAvailableSize := 20 }, .unlock 0 exHandle]
      = some retiredState ∧
    Isolate.Unlock retiredState 0 exHandle = .panicked
      { heap := retiredState.heap,
        isolates := { Data := [.str 1], Len := 0 },
        chIsoReady := retiredState.chIsoReady,
        runtimeOption := retiredState.runtimeOption } :=
  ⟨rfl, (unlock_nil_handle_panics retiredState 0
    { Isolate := none, template := none, status := .IsoBusy } exHandle rfl rfl).2⟩

/-- C8: `health()` returns false if and only if the native handle is absent, or
`TotalHeapSize > HeapSizeRelease`, or `TotalAvailableSize < HeapAvailableSize`; an instance
exactly at both thresholds is healthy.  `health` is a function of the instance and the
options alone and has no state to change. -/
theorem health_reference (handle : Option V8goIsolate) (t : Option Unit) (st : Status)
    (opt : RuntimeOption) :
    (Isolate.health { Isolate := handle, template := t, status := st } opt = false ↔
      (handle = none ∨ ∃ h, handle = some h ∧
        (h.stat.TotalHeapSize > opt.HeapSizeRelease ∨
          h.stat.TotalAvailableSize < opt.HeapAvailableSize))) ∧
    (∀ total avail minSize maxSize pre,
      Isolate.health
        { Isolate := some { stat := { TotalHeapSize := total, TotalAvailableSize := avail } },
          template := t, status := st }
        { MinSize := minSize, MaxSize := maxSize, HeapSizeRelease := total,
          HeapAvailableSize := avail, Precompile := pre } = true) := by
  constructor
  · cases handle with
    | none => simp [Isolate.health]
    | some h =>
      simp only [Isolate.health]
      split_ifs with h1 h2
      · simp [h1]
      · simp [h2]
      · simp; omega
  · intro total avail minSize maxSize pre
    simp [Isolate.health]

/-- C9: for every instance with a native handle and every script, (1) if compilation fails,
`MakeContext` returns the error and no context, the script is not run, and the context it
created has been closed exactly once; (2) if compilation succeeds and the run fails, it
returns the error and no context, and the created context has been closed exactly once;
(3) if both succeed it returns the created context, not closed, and no error.  In all three
cases the pool state, and with it the status of the instance, is unchanged. -/
theorem makeContext_closes_on_failure (compile : V8goIsolate → Script → Option Err)
    (runUnit : Script → Nat → Option Err) (c : CtxState) (iso : Nat) (script : Script)
    (o : Isolate) (h : V8goIsolate) (ho : c.pool.heap[iso]? = some o)
    (hh : o.Isolate = some h) :
    (∀ err, compile h script = some err →
      Isolate.MakeContext compile runUnit c iso script =
        .done none (some err)
          { pool := c.pool, contexts := c.contexts ++ [1], runs := c.runs }) ∧
    (∀ err, compile h script = none → runUnit script c.contexts.length = some err →
      Isolate.MakeContext compile runUnit c iso script =
        .done none (some err)
          { pool := c.pool, contexts := c.contexts ++ [1],
            runs := c.runs ++ [(c.contexts.length, script)] }) ∧
    (compile h script = none → runUnit script c.contexts.length = none →
      Isolate.MakeContext compile runUnit c iso script =
        .done (some c.contexts.length) none
          { pool := c.pool, contexts := c.contexts ++ [0],
            runs := c.runs ++ [(c.contexts.length, script)] }) := by
  refine ⟨?_, ?_, ?_⟩
  · intro err hcomp
    simp [Isolate.MakeContext, ho, hh, hcomp, CtxState.close]
  · intro err hcomp hrun
    simp [Isolate.MakeContext, ho, hh, hcomp, hrun, CtxState.close]
  · intro hcomp hrun
    simp [Isolate.MakeContext, ho, hh, hcomp, hrun]

/-- C9 witness: compiling a script with a syntax error against the fresh instance 0 of
`exResized12` returns the compile error and no context; the one context created is closed
once, nothing was run, and the pool is unchanged. -/
theorem makeContext_closes_on_failure_witness :
    Isolate.MakeContext (fun _ _ => some .compile) (fun _ _ => none) exCtxState 0 exScript =
      .done none (some .compile) { pool := exResized12, contexts := [1], runs := [] } :=
  (makeContext_closes_on_failure (fun _ _ => some .compile) (fun _ _ => none) exCtxState 0
    exScript exReady exHandle rfl rfl).1 .compile rfl

/-- C10: starting from the state left by a completed `Resize` with no instance held, after
every finite sequence of the steps `NewIsolate`, `SelectIso` and `Unlock` of a held instance
(and of changes of heap figures), each of which returns: the readiness queue exists, every
instance occurs in it at most once, every queued instance has status Ready and a native
handle, every held instance (returned by `SelectIso` and not released since) has status Busy
and is not in the queue, and a `SelectIso` that succeeds now returns an instance that is not
held, with status Busy and no longer in the queue; so two successful `SelectIso` calls with
no `Unlock` between them return different instances. -/
theorem readiness_queue_invariant (Validate : RuntimeOption → RuntimeOption) (s0 s1 s2 : State)
    (minSize maxSize : Int) (hs : Nat → V8goIsolate) (r : Option Err) (ops : List ProtoOp)
    (held : List Nat)
    (hres : Isolates.Resize Validate s0 minSize maxSize hs = .done r s1)
    (hrun : protoRun (s1, []) ops = some (s2, held)) :
    ∃ c, s2.chIsoReady = some c ∧
      (∀ p, c.buf.count p ≤ 1) ∧
      (∀ p ∈ c.buf, ∃ o, s2.heap[p]? = some o ∧ o.status = .IsoReady ∧ o.Isolate ≠ none) ∧
      (∀ p ∈ held, p ∉ c.buf ∧ ∃ o, s2.heap[p]? = some o ∧ o.status = .IsoBusy) ∧
      (∀ iso e s3, SelectIso s2 = .done (some iso, e) s3 →
        iso ∉ held ∧ (∃ o, s3.heap[iso]? = some o ∧ o.status = .IsoBusy) ∧
        ∀ c3, s3.chIsoReady = some c3 → iso ∉ c3.buf) := by
  have hinv : QueueInv s2 held := queueInv_protoRun (queueInv_resize hres) hrun
  have hinv0 := hinv
  obtain ⟨c, hc, hnd, _, hq, hh⟩ := hinv
  refine ⟨c, hc, fun p => List.nodup_iff_count_le_one.mp hnd p, hq, hh, ?_⟩
  intro iso e s3 hsel
  obtain ⟨hinv3, hnot⟩ := queueInv_selectIso hinv0 hsel
  obtain ⟨c3, hc3, _, _, _, hh3⟩ := hinv3
  obtain ⟨hn3, hb3⟩ := hh3 iso (List.mem_cons_self _ _)
  refine ⟨hnot, hb3, ?_⟩
  intro c4 hc4
  rw [hc3] at hc4
  simp only [Option.some.injEq] at hc4
  subst hc4
  exact hn3

/-- C10 witness: from `exResized23`, after an acquisition, a creation, a release that
retires instance 0, an acquisition, a heap growth, a release that retires instance 1 and
replaces it, and a last acquisition, the pool is `exAfterSelect` with instance 2 held: the
queue holds instance 3 once, Ready with its handle, and instance 2 is Busy and not queued. -/
theorem readiness_queue_invariant_witness :
    Isolates.Resize id (init exOpt) 2 3 exHandles = .done none exResized23 ∧
    protoRun (exResized23, [])
      [.selectIso, .newIsolate exHandle, .unlock 0 exHandle, .selectIso,
        .exec 1 { TotalHeapSize := 500, TotalAvailableSize := 20 }, .unlock 1 exHandle,
        .selectIso] = some (exAfterSelect, [2]) ∧
    ∃ c, exAfterSelect.chIsoReady = some c ∧
      (∀ p, c.buf.count p ≤ 1) ∧
      (∀ p ∈ c.buf, ∃ o, exAfterSelect.heap[p]? = some o ∧ o.status = .IsoReady ∧
        o.Isolate ≠ none) ∧
      (∀ p ∈ [2], p ∉ c.buf ∧ ∃ o, exAfterSelect.heap[p]? = some o ∧ o.status = .IsoBusy) ∧
      (∀ iso e s3, SelectIso exAfterSelect = .done (some iso, e) s3 →
        iso ∉ [2] ∧ (∃ o, s3.heap[iso]? = some o ∧ o.status = .IsoBusy) ∧
        ∀ c3, s3.chIsoReady = some c3 → iso ∉ c3.buf) :=
  ⟨rfl, rfl, readiness_queue_invariant id (init exOpt) exResized23 exAfterSelect 2 3 exHandles
    none
    [.selectIso, .newIsolate exHandle, .unlock 0 exHandle, .selectIso,
      .exec 1 { TotalHeapSize := 500, TotalAvailableSize := 20 }, .unlock 1 exHandle,
      .selectIso]
    [2] rfl rfl⟩

end V8
